import Mathlib

/-!
# Measure: ring buffer of recent readings plus running aggregates

A shallow embedding of `src/measure.hpp` (class template `Measure<retained>`).

Modelling decisions, all taken from the source:

* `float` is modelled by `F32`, the IEEE 754 binary32 values with the arithmetic the
  source uses: addition, division, the conversion of an unsigned integer, and the ordered
  comparisons, all with round-to-nearest-even, signed zeros, infinities and NaN.
* `_values` is addressed through a memory `Int → Val` whose cells `0 .. _capacity-1`
  are the retention buffer.  Cells at other offsets stand for the memory next to the
  array, so an access of the source that leaves the buffer stays visible in the model
  instead of being silently dropped.
* `int` is taken to be wider than 16 bits, so the `uint16_t` operands of
  `_capacity - _stored - 2` are promoted to `int` and the difference can be negative.
* `_count` is a `uint32_t`: its increment is taken modulo `2 ^ 32`.
* `_stored` is a `uint16_t` that is only incremented below `_capacity`, itself a
  `uint16_t`, so that increment cannot wrap and carries no modulus.
* `_values` and `_count` have no default member initialiser in the source; a
  default-initialised instance therefore starts with whatever these members happen
  to hold, which `Measure.fresh` takes as arguments.
-/

namespace MeasureLib

/-- A value of the type `float` (IEEE 754 binary32).  `fin neg m x` is the finite value
`(-1)^neg * m * 2^(x - 149)`; the values a binary32 holds are those with `m < 2^24`, and
`2^23 ≤ m` unless `x = 0` (subnormals and the two zeros `fin neg 0 0`), with `x ≤ 253`.
A triple outside these bounds stands for its exact value; addition, division and the
conversion of an integer always return a value within them.  All NaN payloads are one
value. -/
inductive F32 where
  /-- Not a number. -/
  | nan
  /-- Positive (`neg = false`) or negative infinity. -/
  | inf (neg : Bool)
  /-- The finite value `(-1)^neg * m * 2^(x - 149)`. -/
  | fin (neg : Bool) (m : Nat) (x : Nat)
  deriving DecidableEq

namespace F32

/-- Number of binary digits of `n`, with the recursion bounded by `fuel`. -/
def bitLenAux : Nat → Nat → Nat
  | 0, _ => 0
  | fuel + 1, n => if n = 0 then 0 else bitLenAux fuel (n / 2) + 1

/-- Number of binary digits of `n` (0 for 0); `n` itself is fuel enough. -/
def bitLen (n : Nat) : Nat := bitLenAux n n

/-- The integer nearest to `q / 2^k`, ties to even; `sticky` says that `q` itself was
truncated, which breaks a tie upwards. -/
def roundShift (q k : Nat) (sticky : Bool) : Nat :=
  if q % 2 ^ k > 2 ^ (k - 1) ∨
      (q % 2 ^ k = 2 ^ (k - 1) ∧ (sticky = true ∨ (q / 2 ^ k) % 2 = 1)) then
    q / 2 ^ k + 1
  else q / 2 ^ k

/-- Exponent field of the binary32 nearest to `q * 2^(t - 149)`: the one that leaves a
24-bit mantissa, or 0 in the subnormal range. -/
def expOf (q : Nat) (t : Int) : Int :=
  if t + (bitLen q : Int) - 24 < 0 then 0 else t + (bitLen q : Int) - 24

/-- Mantissa of `q * 2^(t - 149)` at the exponent `expOf q t`, rounded to nearest even. -/
def mantOf (q : Nat) (sticky : Bool) (t : Int) : Nat :=
  if expOf q t - t ≤ 0 then q * 2 ^ (t - expOf q t).toNat
  else roundShift q (expOf q t - t).toNat sticky

/-- The binary32 nearest to `(-1)^neg * q * 2^(t - 149)` (ties to even): a mantissa that
rounds up to `2^24` moves to the next exponent, an exponent above 253 overflows to
infinity. -/
def round (neg : Bool) (q : Nat) (sticky : Bool) (t : Int) : F32 :=
  if mantOf q sticky t = 0 then fin neg 0 0
  else if mantOf q sticky t = 16777216 then
    (if expOf q t + 1 > 253 then inf neg else fin neg 8388608 (expOf q t + 1).toNat)
  else
    (if expOf q t > 253 then inf neg else fin neg (mantOf q sticky t) (expOf q t).toNat)

/-- Conversion of an unsigned integer to `float`. -/
def ofNat (n : Nat) : F32 := round false n false 149

/-- A finite value as a signed multiple of `2^(-149)`; 0 for the other values. -/
def mag : F32 → Int
  | fin false m x => ((m * 2 ^ x : Nat) : Int)
  | fin true m x => - ((m * 2 ^ x : Nat) : Int)
  | _ => 0

/-- Position of a value relative to the finite ones: -1 for negative infinity, 1 for
positive infinity, 0 otherwise. -/
def tier : F32 → Int
  | inf false => 1
  | inf true => -1
  | _ => 0

/-- Whether a value is NaN. -/
def isNaN : F32 → Bool
  | nan => true
  | _ => false

/-- The operator `+` on `float`. -/
def add : F32 → F32 → F32
  | nan, _ => nan
  | _, nan => nan
  | inf a, inf b => if a = b then inf a else nan
  | inf a, fin _ _ _ => inf a
  | fin _ _ _, inf b => inf b
  | fin a m x, fin b n y =>
    if m = 0 ∧ n = 0 then fin (a && b) 0 0
    else if a = b then
      round a (m * 2 ^ (x - min x y) + n * 2 ^ (y - min x y)) false (min x y : Nat)
    else if m * 2 ^ (x - min x y) = n * 2 ^ (y - min x y) then fin false 0 0
    else if n * 2 ^ (y - min x y) < m * 2 ^ (x - min x y) then
      round a (m * 2 ^ (x - min x y) - n * 2 ^ (y - min x y)) false (min x y : Nat)
    else
      round b (n * 2 ^ (y - min x y) - m * 2 ^ (x - min x y)) false (min x y : Nat)

/-- The operator `/` on `float`: the nonzero finite case divides the mantissas with 26
extra bits and records a lost remainder as sticky. -/
def div : F32 → F32 → F32
  | nan, _ => nan
  | _, nan => nan
  | inf _, inf _ => nan
  | inf a, fin b _ _ => inf (xor a b)
  | fin a _ _, inf b => fin (xor a b) 0 0
  | fin a m x, fin b n y =>
    if n = 0 then (if m = 0 then nan else inf (xor a b))
    else if m = 0 then fin (xor a b) 0 0
    else
      round (xor a b) (m * 2 ^ (26 + bitLen n) / n)
        (decide (m * 2 ^ (26 + bitLen n) % n ≠ 0))
        ((x : Int) - (y : Int) - ((26 + bitLen n : Nat) : Int) + 149)

/-- The unary minus on `float`. -/
def neg : F32 → F32
  | nan => nan
  | inf a => inf (!a)
  | fin a m x => fin (!a) m x

instance : OfNat F32 n := ⟨ofNat n⟩
instance : NatCast F32 := ⟨ofNat⟩
instance : Add F32 := ⟨add⟩
instance : Div F32 := ⟨div⟩
instance : Neg F32 := ⟨neg⟩
/-- The operator `<` on `float`: false whenever an operand is NaN. -/
instance : LT F32 :=
  ⟨fun a b => a.isNaN = false ∧ b.isNaN = false ∧
    (a.tier < b.tier ∨ (a.tier = b.tier ∧ a.mag < b.mag))⟩
/-- The operator `<=` on `float`: false whenever an operand is NaN. -/
instance : LE F32 :=
  ⟨fun a b => a.isNaN = false ∧ b.isNaN = false ∧
    (a.tier < b.tier ∨ (a.tier = b.tier ∧ a.mag ≤ b.mag))⟩
instance (a b : F32) : Decidable (a < b) :=
  inferInstanceAs (Decidable (a.isNaN = false ∧ b.isNaN = false ∧
    (a.tier < b.tier ∨ (a.tier = b.tier ∧ a.mag < b.mag))))
instance (a b : F32) : Decidable (a ≤ b) :=
  inferInstanceAs (Decidable (a.isNaN = false ∧ b.isNaN = false ∧
    (a.tier < b.tier ∨ (a.tier = b.tier ∧ a.mag ≤ b.mag))))

end F32

/-- Values stored and aggregated by the library (`float` in the source). -/
abbrev Val := F32

/-- Number of distinct values of the `uint32_t` inclusion counter. -/
def countModulus : Nat := 4294967296

/-- The data members of `Measure<retained>`. -/
structure Measure where
  /-- Memory addressed as `_values[i]`; the buffer is cells `0 .. capacity - 1`. -/
  values : Int → Val
  /-- Size of the internal retention buffer (`_capacity`). -/
  capacity : Nat
  /-- Number of values retained in the buffer (`_stored`). -/
  stored : Nat
  /-- Number of values included since the last clear or reset (`_count`). -/
  count : Nat
  total : Val
  maxvalue : Val
  minvalue : Val
  average : Val
  new_min_max : Bool

/-- The assignment `_values[i] = v`. -/
def store (vals : Int → Val) (i : Int) (v : Val) : Int → Val :=
  fun j => if j = i then v else vals j

/-- A default-initialised instance of `Measure<retained>`: the members with a default
member initialiser take it, `_values` and `_count` keep the indeterminate contents
`mem` and `cnt` of the storage the object is created in. -/
def Measure.fresh (retained : Nat) (mem : Int → Val) (cnt : Nat) : Measure where
  values := mem
  capacity := retained
  stored := 0
  count := cnt % countModulus
  total := 0
  maxvalue := 0
  minvalue := 0
  average := 0
  new_min_max := true

/-- The loop `for(i=0;i<_capacity;i++) _values[i] = 0.0;`, run for `n` iterations
starting at index `i`. -/
def zeroFrom (vals : Int → Val) (i : Int) : Nat → (Int → Val)
  | 0 => vals
  | n + 1 => zeroFrom (store vals i 0) (i + 1) n

/-- The function `begin()`. -/
def Measure.begin (s : Measure) : Measure :=
  { s with values := zeroFrom s.values 0 ((s.capacity : Int) - 0).toNat }

/-- The function `getMember(index)`. -/
def Measure.getMember (s : Measure) (index : Int) : Val :=
  if index < 0 then s.values 0
  else if index ≥ (s.capacity : Int) then s.values ((s.capacity : Int) - 1)
  else s.values index

/-- The function `getCurrent()`. -/
def Measure.getCurrent (s : Measure) : Val :=
  s.values ((s.capacity : Int) - 1)

/-- The function `getCapacity()`. -/
def Measure.getCapacity (s : Measure) : Nat := s.capacity

/-- The function `getStored()`. -/
def Measure.getStored (s : Measure) : Nat := s.stored

/-- The function `clear()`. -/
def Measure.clear (s : Measure) : Measure :=
  { s with total := 0, average := 0, count := 0, maxvalue := 0, minvalue := 0,
           new_min_max := true }

/-- The function `resetAvg()`. -/
def Measure.resetAvg (s : Measure) : Measure :=
  { s with total := 0, average := 0, count := 0 }

/-- The function `deleteRetained()`. -/
def Measure.deleteRetained (s : Measure) : Measure :=
  { s with values := zeroFrom s.values 0 ((s.capacity : Int) - 0).toNat, stored := 0 }

/-- The function `getCount()`. -/
def Measure.getCount (s : Measure) : Nat := s.count

/-- The function `getTotal()`. -/
def Measure.getTotal (s : Measure) : Val := s.total

/-- The function `getMax()`. -/
def Measure.getMax (s : Measure) : Val := s.maxvalue

/-- The function `getMin()`. -/
def Measure.getMin (s : Measure) : Val := s.minvalue

/-- The function `getAverage()`. -/
def Measure.getAverage (s : Measure) : Val := s.average

/-- The shift loop of `include`, `_values[i] = _values[i+1]` with `i` increasing by one,
run for `n` iterations starting at index `i`. -/
def shiftFrom (vals : Int → Val) (i : Int) : Nat → (Int → Val)
  | 0 => vals
  | n + 1 => shiftFrom (store vals i (vals (i + 1))) (i + 1) n

/-- First index of the shift loop of `include`: `_capacity - _stored - 2`. -/
def shiftStart (s : Measure) : Int := (s.capacity : Int) - (s.stored : Int) - 2

/-- Number of iterations of `for(i=start; i < _capacity-1; i++)`. -/
def shiftCount (s : Measure) : Nat := (((s.capacity : Int) - 1) - shiftStart s).toNat

/-- The function `include(newvalue)`. -/
def Measure.include (s : Measure) (newvalue : Val) : Measure where
  capacity := s.capacity
  count := (s.count + 1) % countModulus
  total := s.total + newvalue
  maxvalue :=
    if s.new_min_max = true then newvalue
    else if newvalue > s.maxvalue then newvalue else s.maxvalue
  minvalue :=
    if s.new_min_max = true then newvalue
    else if newvalue < s.minvalue then newvalue else s.minvalue
  new_min_max := false
  average := (s.total + newvalue) / (((s.count + 1) % countModulus : Nat) : Val)
  values :=
    if s.capacity = 1 then store s.values 0 newvalue
    else store (shiftFrom s.values (shiftStart s) (shiftCount s))
                 ((s.capacity : Int) - 1) newvalue
  stored :=
    if s.capacity = 1 then 1
    else if s.stored < s.capacity then s.stored + 1 else s.stored

/-- Indices of `_values` touched by the shift loop of `include`: each iteration reads
`i + 1` and writes `i`. -/
def shiftTouched (i : Int) : Nat → List Int
  | 0 => []
  | n + 1 => (i + 1) :: i :: shiftTouched (i + 1) n

/-- Indices of `_values` read or written by one call of `include`, in program order. -/
def Measure.includeTouched (s : Measure) : List Int :=
  if s.capacity = 1 then [0]
  else shiftTouched (shiftStart s) (shiftCount s) ++ [(s.capacity : Int) - 1]

/-- Successive calls `include(v1); include(v2); ...` for the values of `xs`. -/
def Measure.includeAll (s : Measure) (xs : List Val) : Measure :=
  xs.foldl Measure.include s

/-- Ring invariant used for the ordering claims: `rev` lists the retained history
newest first; the buffer holds its first `stored` entries from the last slot downwards. -/
def RingInv (s : Measure) (rev : List Val) : Prop :=
  s.stored = min rev.length s.capacity ∧
    ∀ j : Nat, j < s.stored → rev[j]? = some (s.values ((s.capacity : Int) - 1 - (j : Int)))

/-- The value of `_count` that `include` divides by in `_average = _total / _count`:
the counter after `_count++`. -/
def Measure.includeDivisor (s : Measure) : Nat := (s.count + 1) % countModulus

/-- One item written to the serial stream by `Serial.print` or `Serial.println`. -/
inductive Token where
  /-- A string literal. -/
  | text (t : String)
  /-- An unsigned integer, printed in decimal. -/
  | number (n : Nat)
  /-- A float; its text form is left to the platform. -/
  | value (v : Val)
  /-- The line end that `println` appends. -/
  | endOfLine
  deriving DecidableEq

/-- The loop of `printRetained`, run for `n` iterations from index `i`; `first` is its
start index `_capacity - _stored`, before which no comma is written. -/
def printFrom (vals : Int → Val) (first : Int) (i : Int) : Nat → List Token
  | 0 => []
  | n + 1 =>
    (if i ≠ first then [Token.text ","] else []) ++
      Token.value (vals i) :: printFrom vals first (i + 1) n

/-- The function `printRetained()`: the instance after the call and the items written. -/
def Measure.printRetained (s : Measure) : Measure × List Token :=
  (s,
    [Token.text "[", Token.number s.stored, Token.text " of ", Token.number s.capacity,
      Token.text "]:("] ++
    printFrom s.values ((s.capacity : Int) - (s.stored : Int))
      ((s.capacity : Int) - (s.stored : Int))
      ((s.capacity : Int) - ((s.capacity : Int) - (s.stored : Int))).toNat ++
    [Token.text ")", Token.endOfLine])

/-- A call of one of the mutating member functions. -/
inductive Op where
  | callBegin
  | callInclude (v : Val)
  | callClear
  | callResetAvg
  | callDeleteRetained

/-- Effect of one call on the instance. -/
def Measure.step (s : Measure) : Op → Measure
  | Op.callBegin => s.begin
  | Op.callInclude v => s.include v
  | Op.callClear => s.clear
  | Op.callResetAvg => s.resetAvg
  | Op.callDeleteRetained => s.deleteRetained

/-- Effect of a sequence of calls, first call first. -/
def Measure.run (s : Measure) (ops : List Op) : Measure :=
  ops.foldl Measure.step s

/-- Whether the last call of `ops`, run from `s`, that wrote the aggregates was an
`include` whose increment `_count++` wrapped the counter to 0; `w` is the answer for the
calls made before `ops`. -/
def wrappedLast : Measure → Bool → List Op → Bool
  | _, w, [] => w
  | s, w, Op.callBegin :: rest => wrappedLast s.begin w rest
  | s, _, Op.callInclude v :: rest =>
    wrappedLast (s.include v) (decide ((s.include v).count = 0)) rest
  | s, _, Op.callClear :: rest => wrappedLast s.clear false rest
  | s, _, Op.callResetAvg :: rest => wrappedLast s.resetAvg false rest
  | s, w, Op.callDeleteRetained :: rest => wrappedLast s.deleteRetained w rest

/-- The values the ring is meant to retain after the calls `ops`, oldest first, given
that it retained `hist` before: `include` appends its value, `deleteRetained` discards
everything, `begin` overwrites every retained value with 0, the aggregate resets keep
the history. -/
def retainedAfter (hist : List Val) : List Op → List Val
  | [] => hist
  | Op.callBegin :: rest => retainedAfter (hist.map fun _ => 0) rest
  | Op.callInclude v :: rest => retainedAfter (hist ++ [v]) rest
  | Op.callClear :: rest => retainedAfter hist rest
  | Op.callResetAvg :: rest => retainedAfter hist rest
  | Op.callDeleteRetained :: rest => retainedAfter [] rest

/-- Left-rotate-and-append on a buffer of `capacity` slots, as the specification words
it: every slot takes the value of its right neighbour, the last slot takes `v`; memory
outside the buffer is left alone. -/
def rotateAppend (vals : Int → Val) (capacity : Nat) (v : Val) : Int → Val :=
  fun i =>
    if i = (capacity : Int) - 1 then v
    else if 0 ≤ i ∧ i < (capacity : Int) - 1 then vals (i + 1)
    else vals i

/-- Every unfilled slot of the buffer, index below `capacity - stored`, holds 0. -/
def UnfilledZero (s : Measure) : Prop :=
  ∀ i : Int, 0 ≤ i → i < (s.capacity : Int) - (s.stored : Int) → s.values i = 0

/-! ## Basic facts about the loops -/

theorem store_apply (vals : Int → Val) (i j : Int) (v : Val) :
    store vals i v j = if j = i then v else vals j := rfl

theorem shiftFrom_apply (n : Nat) : ∀ (vals : Int → Val) (i j : Int),
    shiftFrom vals i n j = if i ≤ j ∧ j < i + (n : Int) then vals (j + 1) else vals j := by
  induction n with
  | zero =>
    intro vals i j
    have h : ¬ (i ≤ j ∧ j < i + ((0 : Nat) : Int)) := by omega
    simp only [shiftFrom, if_neg h]
  | succ n ih =>
    intro vals i j
    simp only [shiftFrom, ih, store_apply]
    by_cases h1 : i + 1 ≤ j ∧ j < i + 1 + (n : Int)
    · have h2 : i ≤ j ∧ j < i + ((n + 1 : Nat) : Int) := by omega
      have h3 : ¬ (j + 1 = i) := by omega
      rw [if_pos h1, if_pos h2, if_neg h3]
    · rw [if_neg h1]
      by_cases h4 : j = i
      · have h2 : i ≤ j ∧ j < i + ((n + 1 : Nat) : Int) := by omega
        rw [if_pos h4, if_pos h2, h4]
      · have h2 : ¬ (i ≤ j ∧ j < i + ((n + 1 : Nat) : Int)) := by omega
        rw [if_neg h4, if_neg h2]

theorem zeroFrom_apply (n : Nat) : ∀ (vals : Int → Val) (i j : Int),
    zeroFrom vals i n j = if i ≤ j ∧ j < i + (n : Int) then 0 else vals j := by
  induction n with
  | zero =>
    intro vals i j
    have h : ¬ (i ≤ j ∧ j < i + ((0 : Nat) : Int)) := by omega
    simp only [zeroFrom, if_neg h]
  | succ n ih =>
    intro vals i j
    simp only [zeroFrom, ih, store_apply]
    by_cases h1 : i + 1 ≤ j ∧ j < i + 1 + (n : Int)
    · have h2 : i ≤ j ∧ j < i + ((n + 1 : Nat) : Int) := by omega
      rw [if_pos h1, if_pos h2]
    · rw [if_neg h1]
      by_cases h4 : j = i
      · have h2 : i ≤ j ∧ j < i + ((n + 1 : Nat) : Int) := by omega
        rw [if_pos h4, if_pos h2]
      · have h2 : ¬ (i ≤ j ∧ j < i + ((n + 1 : Nat) : Int)) := by omega
        rw [if_neg h4, if_neg h2]

theorem shiftCount_eq (s : Measure) : shiftCount s = s.stored + 1 := by
  unfold shiftCount shiftStart
  omega

/-- Buffer memory after `include` when the capacity is not 1. -/
theorem include_values_of_ne_one (s : Measure) (v : Val) (h : s.capacity ≠ 1) (j : Int) :
    (s.include v).values j =
      if j = (s.capacity : Int) - 1 then v
      else if (s.capacity : Int) - (s.stored : Int) - 2 ≤ j ∧ j < (s.capacity : Int) - 1
        then s.values (j + 1) else s.values j := by
  simp only [Measure.include, if_neg h, store_apply, shiftFrom_apply, shiftCount_eq, shiftStart]
  by_cases h1 : j = (s.capacity : Int) - 1
  · rw [if_pos h1, if_pos h1]
  · rw [if_neg h1, if_neg h1]
    by_cases h2 : (s.capacity : Int) - (s.stored : Int) - 2 ≤ j ∧ j < (s.capacity : Int) - 1
    · have h3 : (s.capacity : Int) - (s.stored : Int) - 2 ≤ j ∧
          j < (s.capacity : Int) - (s.stored : Int) - 2 + ((s.stored + 1 : Nat) : Int) := by
        omega
      rw [if_pos h2, if_pos h3]
    · have h3 : ¬ ((s.capacity : Int) - (s.stored : Int) - 2 ≤ j ∧
          j < (s.capacity : Int) - (s.stored : Int) - 2 + ((s.stored + 1 : Nat) : Int)) := by
        omega
      rw [if_neg h2, if_neg h3]

theorem include_values_of_eq_one (s : Measure) (v : Val) (h : s.capacity = 1) (j : Int) :
    (s.include v).values j = if j = 0 then v else s.values j := by
  simp only [Measure.include, if_pos h, store_apply]

@[simp]
theorem include_capacity (s : Measure) (v : Val) :
    (s.include v).capacity = s.capacity := rfl

@[simp]
theorem includeAll_nil (s : Measure) : s.includeAll [] = s := rfl

@[simp]
theorem includeAll_cons (s : Measure) (v : Val) (xs : List Val) :
    s.includeAll (v :: xs) = (s.include v).includeAll xs := rfl

theorem includeAll_append (s : Measure) (xs ys : List Val) :
    s.includeAll (xs ++ ys) = (s.includeAll xs).includeAll ys := by
  simp [Measure.includeAll, List.foldl_append]

@[simp]
theorem includeAll_capacity (xs : List Val) : ∀ s : Measure,
    (s.includeAll xs).capacity = s.capacity := by
  induction xs with
  | nil => intro s; rfl
  | cons v xs ih => intro s; simp [ih]

/-! ## The ring invariant -/

theorem ringInv_include (s : Measure) (rev : List Val) (v : Val) (hcap : 1 ≤ s.capacity)
    (h : RingInv s rev) : RingInv (s.include v) (v :: rev) := by
  obtain ⟨hst, hval⟩ := h
  by_cases h1 : s.capacity = 1
  · refine ⟨?_, ?_⟩
    · simp only [Measure.include, if_pos h1, List.length_cons]
      omega
    · intro j hj
      have hj0 : j = 0 := by
        simp only [Measure.include, if_pos h1] at hj
        omega
      subst hj0
      rw [include_values_of_eq_one s v h1]
      simp [h1]
  · refine ⟨?_, ?_⟩
    · simp only [Measure.include, if_neg h1, List.length_cons]
      split_ifs <;> omega
    · intro j hj
      have hj2 : j < s.stored + 1 := by
        simp only [Measure.include, if_neg h1] at hj
        split_ifs at hj <;> omega
      rw [include_values_of_ne_one s v h1, include_capacity]
      cases j with
      | zero => simp
      | succ k =>
        have hk : k < s.stored := by omega
        have hle : s.stored ≤ s.capacity := by omega
        have h2 : ¬ ((s.capacity : Int) - 1 - ((k + 1 : Nat) : Int) = (s.capacity : Int) - 1) := by
          omega
        have h3 : (s.capacity : Int) - (s.stored : Int) - 2
              ≤ (s.capacity : Int) - 1 - ((k + 1 : Nat) : Int) ∧
            (s.capacity : Int) - 1 - ((k + 1 : Nat) : Int) < (s.capacity : Int) - 1 := by
          omega
        rw [if_neg h2, if_pos h3, List.getElem?_cons_succ, hval k hk]
        congr 2
        omega

theorem ringInv_includeAll (xs : List Val) : ∀ (s : Measure) (rev : List Val),
    1 ≤ s.capacity → RingInv s rev → RingInv (s.includeAll xs) (xs.reverse ++ rev) := by
  induction xs with
  | nil => intro s rev _ h; simpa using h
  | cons v xs ih =>
    intro s rev hcap h
    have h1 := ih (s.include v) (v :: rev) (by simpa using hcap) (ringInv_include s rev v hcap h)
    simpa using h1

theorem ringInv_of_stored_zero (s : Measure) (h : s.stored = 0) : RingInv s [] := by
  refine ⟨by simp [h], ?_⟩
  intro j hj
  omega

theorem getMember_of_inRange (s : Measure) (i : Int) (h0 : 0 ≤ i) (h1 : i < (s.capacity : Int)) :
    s.getMember i = s.values i := by
  unfold Measure.getMember
  rw [if_neg (by omega), if_neg (by omega)]

theorem fresh_stored (retained : Nat) (mem : Int → Val) (cnt : Nat) :
    (Measure.fresh retained mem cnt).stored = 0 := rfl

theorem deleteRetained_stored (t : Measure) : t.deleteRetained.stored = 0 := rfl

/-- Shape of the ring after including `xs` into an instance that retains nothing. -/
theorem ring_after_includeAll (s : Measure) (xs : List Val) (hcap : 1 ≤ s.capacity)
    (h0 : s.stored = 0) :
    (s.includeAll xs).stored = min xs.length s.capacity ∧
      ∀ j : Nat, j < min xs.length s.capacity →
        xs[xs.length - 1 - j]? =
          some ((s.includeAll xs).values ((s.capacity : Int) - 1 - (j : Int))) := by
  have h := ringInv_includeAll xs s [] hcap (ringInv_of_stored_zero s h0)
  obtain ⟨hst, hval⟩ := h
  simp only [List.append_nil, List.length_reverse, includeAll_capacity] at hst hval
  refine ⟨hst, ?_⟩
  intro j hj
  have hj1 : j < xs.length := by omega
  rw [← hval j (by omega), List.getElem?_reverse hj1]

/-- Slots of a fresh instance after at least `retained` inclusions. -/
theorem ring_slots_after_overflow (retained : Nat) (mem : Int → Val) (cnt : Nat)
    (xs : List Val) (hcap : 1 ≤ retained) (hn : retained ≤ xs.length) :
    ((Measure.fresh retained mem cnt).includeAll xs).stored = retained ∧
      ∀ i : Nat, i < retained →
        xs[xs.length - retained + i]? =
          some (((Measure.fresh retained mem cnt).includeAll xs).values (i : Int)) := by
  obtain ⟨hst, hval⟩ :=
    ring_after_includeAll (Measure.fresh retained mem cnt) xs hcap rfl
  have hc : (Measure.fresh retained mem cnt).capacity = retained := rfl
  rw [hc] at hst hval
  have hmin : min xs.length retained = retained := Nat.min_eq_right hn
  rw [hmin] at hst hval
  refine ⟨hst, ?_⟩
  intro i hi
  have h := hval (retained - 1 - i) (by omega)
  have e1 : xs.length - 1 - (retained - 1 - i) = xs.length - retained + i := by omega
  have e2 : (retained : Int) - 1 - ((retained - 1 - i : Nat) : Int) = (i : Int) := by omega
  rw [e1, e2] at h
  exact h

/-! ## Ring claims -/

/-- C1. Ring ordering while filling: starting from a freshly constructed instance or from
one on which `deleteRetained()` was just called, with capacity at least 1, including
`k` values `v1 .. vk` with `1 ≤ k ≤ capacity` gives `getStored() = k` and
`getMember(capacity-1-j) = v(k-j)` for every `j` in `0 .. k-1`. -/
theorem ring_ordering_while_filling (s : Measure) (xs : List Val)
    (hstart : (∃ retained mem cnt, s = Measure.fresh retained mem cnt) ∨
      (∃ t : Measure, s = t.deleteRetained))
    (hcap : 1 ≤ s.capacity) (_hk1 : 1 ≤ xs.length) (hk : xs.length ≤ s.capacity) :
    (s.includeAll xs).getStored = xs.length ∧
      ∀ j : Nat, j < xs.length →
        xs[xs.length - 1 - j]? =
          some ((s.includeAll xs).getMember ((s.capacity : Int) - 1 - (j : Int))) := by
  have h0 : s.stored = 0 := by
    rcases hstart with ⟨r, m, c, rfl⟩ | ⟨t, rfl⟩
    · rfl
    · rfl
  obtain ⟨hst, hval⟩ := ring_after_includeAll s xs hcap h0
  have hmin : min xs.length s.capacity = xs.length := Nat.min_eq_left hk
  refine ⟨by simpa [Measure.getStored, hmin] using hst, ?_⟩
  intro j hj
  rw [getMember_of_inRange _ _ (by omega) (by simp only [includeAll_capacity]; omega)]
  exact hval j (by omega)

/-- Witness for C1: capacity 3, arbitrary leftover buffer contents, values 4 and 6. -/
theorem ring_ordering_while_filling_witness :
    ((Measure.fresh 3 (fun _ => 7) 5).includeAll [4, 6]).getStored = 2 ∧
      ∀ j : Nat, j < 2 →
        ([4, 6] : List Val)[2 - 1 - j]? =
          some (((Measure.fresh 3 (fun _ => 7) 5).includeAll [4, 6]).getMember
            (((3 : Nat) : Int) - 1 - (j : Int))) :=
  ring_ordering_while_filling (Measure.fresh 3 (fun _ => 7) 5) [4, 6]
    (Or.inl ⟨3, fun _ => 7, 5, rfl⟩) (by decide) (by decide) (by decide)

/-- C2. Ring overflow: for capacity at least 1 and at least `capacity` values included into
a freshly constructed instance, `getStored() = capacity`, slots `0 .. capacity-1` hold the
last `capacity` included values oldest first, and `getCurrent()` is the last value. -/
theorem ring_overflow (retained : Nat) (mem : Int → Val) (cnt : Nat) (xs : List Val)
    (hcap : 1 ≤ retained) (hn : retained ≤ xs.length) :
    ((Measure.fresh retained mem cnt).includeAll xs).getStored = retained ∧
      (List.range retained).map
          (fun i : Nat => ((Measure.fresh retained mem cnt).includeAll xs).values (i : Int)) =
        xs.drop (xs.length - retained) ∧
      (∀ i : Nat, i < retained →
        xs[xs.length - retained + i]? =
          some (((Measure.fresh retained mem cnt).includeAll xs).getMember (i : Int))) ∧
      xs.getLast? = some ((Measure.fresh retained mem cnt).includeAll xs).getCurrent := by
  obtain ⟨hst, hslot⟩ := ring_slots_after_overflow retained mem cnt xs hcap hn
  have hc : (Measure.fresh retained mem cnt).capacity = retained := rfl
  refine ⟨hst, ?_, ?_, ?_⟩
  · apply List.ext_getElem?
    intro i
    by_cases hi : i < retained
    · rw [List.getElem?_drop, hslot i hi]
      simp [List.getElem?_map, List.getElem?_range hi]
    · have h1 : (List.range retained).length ≤ i := by simp; omega
      have h2 : (xs.drop (xs.length - retained)).length ≤ i := by simp; omega
      rw [List.getElem?_eq_none (by simpa using h1), List.getElem?_eq_none h2]
  · intro i hi
    rw [getMember_of_inRange _ _ (by omega) (by simp only [includeAll_capacity, hc]; omega)]
    exact hslot i hi
  · have h := hslot (retained - 1) (by omega)
    have e1 : xs.length - retained + (retained - 1) = xs.length - 1 := by omega
    have e2 : ((retained - 1 : Nat) : Int) = (retained : Int) - 1 := by omega
    rw [e1, e2] at h
    rw [List.getLast?_eq_getElem?, h]
    simp [Measure.getCurrent, hc]

/-- Witness for C2: capacity 3 with 1,2,3,4,5 leaves slots [3,4,5] and current value 5;
capacity 1 with 1,2,3 leaves one stored value, 3, in slot 0. -/
theorem ring_overflow_witness :
    (((Measure.fresh 3 (fun _ => 7) 5).includeAll [1, 2, 3, 4, 5]).getStored = 3 ∧
      (List.range 3).map
          (fun i : Nat => ((Measure.fresh 3 (fun _ => 7) 5).includeAll [1, 2, 3, 4, 5]).values (i : Int)) =
        [3, 4, 5] ∧
      ((Measure.fresh 3 (fun _ => 7) 5).includeAll [1, 2, 3, 4, 5]).getCurrent = 5) ∧
    (((Measure.fresh 1 (fun _ => 7) 5).includeAll [1, 2, 3]).getStored = 1 ∧
      ((Measure.fresh 1 (fun _ => 7) 5).includeAll [1, 2, 3]).getCurrent = 3 ∧
      ((Measure.fresh 1 (fun _ => 7) 5).includeAll [1, 2, 3]).getMember 0 = 3) := by
  have h3 := ring_overflow 3 (fun _ => 7) 5 [1, 2, 3, 4, 5] (by decide) (by decide)
  have h1 := ring_overflow 1 (fun _ => 7) 5 [1, 2, 3] (by decide) (by decide)
  obtain ⟨a3, b3, _, d3⟩ := h3
  obtain ⟨a1, _, c1, d1⟩ := h1
  refine ⟨⟨a3, ?_, ?_⟩, a1, ?_, ?_⟩
  · rw [b3]; rfl
  · simpa using d3.symm
  · simpa using d1.symm
  · have h := c1 0 (by decide)
    simpa using h.symm

/-- C3. Evaluation of the indices `include` touches: with capacity 2, the second
inclusion (one value stored) runs the shift loop from index -1, reading slot 0 and
writing slot -1 before the in-range copies; the third inclusion (buffer full) starts
at index -2 and both reads and writes slot -1.  These indices are outside the buffer
`0 .. 1`. -/
theorem include_shift_leaves_buffer :
    ((Measure.fresh 2 (fun _ => 0) 0).include 1).stored = 1 ∧
    ((Measure.fresh 2 (fun _ => 0) 0).include 1).includeTouched = [0, -1, 1, 0, 1] ∧
    (((Measure.fresh 2 (fun _ => 0) 0).include 1).include 2).stored = 2 ∧
    (((Measure.fresh 2 (fun _ => 0) 0).include 1).include 2).includeTouched =
      [-1, -2, 0, -1, 1, 0, 1] ∧
    ¬ (∀ i ∈ ((Measure.fresh 2 (fun _ => 0) 0).include 1).includeTouched,
        0 ≤ i ∧ i ≤ ((2 : Nat) : Int) - 1) := by
  refine ⟨by decide, by decide, by decide, by decide, ?_⟩
  intro h
  have h1 := h (-1) (by decide)
  omega

/-! ## Facts about the float arithmetic -/

theorem F32.zero_eq : (0 : F32) = F32.fin false 0 0 := by decide!

theorem F32.natCast_zero : ((0 : Nat) : F32) = F32.fin false 0 0 := by decide!

theorem F32.lt_iff (a b : F32) : a < b ↔ a.isNaN = false ∧ b.isNaN = false ∧
    (a.tier < b.tier ∨ (a.tier = b.tier ∧ a.mag < b.mag)) := Iff.rfl

theorem F32.le_iff (a b : F32) : a ≤ b ↔ a.isNaN = false ∧ b.isNaN = false ∧
    (a.tier < b.tier ∨ (a.tier = b.tier ∧ a.mag ≤ b.mag)) := Iff.rfl

theorem F32.isNaN_eq_false (a : F32) (h : a ≠ F32.nan) : a.isNaN = false := by
  cases a with
  | nan => exact absurd rfl h
  | inf _ => rfl
  | fin _ _ _ => rfl

theorem F32.ne_nan_of_isNaN (a : F32) (h : a.isNaN = false) : a ≠ F32.nan := by
  intro e
  rw [e] at h
  exact Bool.noConfusion h

theorem F32.ne_nan_of_lt {a b : F32} (h : a < b) : a ≠ F32.nan ∧ b ≠ F32.nan :=
  ⟨F32.ne_nan_of_isNaN a ((F32.lt_iff a b).mp h).1,
    F32.ne_nan_of_isNaN b ((F32.lt_iff a b).mp h).2.1⟩

theorem F32.ne_nan_of_le {a b : F32} (h : a ≤ b) : a ≠ F32.nan ∧ b ≠ F32.nan :=
  ⟨F32.ne_nan_of_isNaN a ((F32.le_iff a b).mp h).1,
    F32.ne_nan_of_isNaN b ((F32.le_iff a b).mp h).2.1⟩

theorem F32.le_self {a : F32} (h : a ≠ F32.nan) : a ≤ a := by
  rw [F32.le_iff]
  exact ⟨F32.isNaN_eq_false a h, F32.isNaN_eq_false a h, Or.inr ⟨rfl, le_refl _⟩⟩

theorem F32.le_of_lt {a b : F32} (h : a < b) : a ≤ b := by
  rw [F32.lt_iff] at h
  rw [F32.le_iff]
  obtain ⟨h1, h2, h3⟩ := h
  refine ⟨h1, h2, ?_⟩
  omega

theorem F32.le_of_not_lt {a b : F32} (ha : a ≠ F32.nan) (hb : b ≠ F32.nan) (h : ¬ a < b) :
    b ≤ a := by
  rw [F32.lt_iff] at h
  rw [F32.le_iff]
  have h1 := F32.isNaN_eq_false a ha
  have h2 := F32.isNaN_eq_false b hb
  refine ⟨h2, h1, ?_⟩
  have h3 : ¬ (a.tier < b.tier ∨ (a.tier = b.tier ∧ a.mag < b.mag)) := fun h4 => h ⟨h1, h2, h4⟩
  omega

theorem F32.le_trans {a b c : F32} (h1 : a ≤ b) (h2 : b ≤ c) : a ≤ c := by
  rw [F32.le_iff] at h1 h2
  rw [F32.le_iff]
  obtain ⟨a1, _, a3⟩ := h1
  obtain ⟨_, b2, b3⟩ := h2
  refine ⟨a1, b2, ?_⟩
  omega

theorem F32.not_le_nan (a : F32) : ¬ (a ≤ F32.nan) := by
  intro h
  exact (F32.ne_nan_of_le h).2 rfl

/-- Dividing by the float 0 gives NaN or an infinity, never a finite value. -/
theorem F32.div_zero (a : F32) :
    a / (F32.fin false 0 0) = F32.nan ∨ a / (F32.fin false 0 0) = F32.inf false ∨
      a / (F32.fin false 0 0) = F32.inf true := by
  show F32.div a (F32.fin false 0 0) = _ ∨ F32.div a (F32.fin false 0 0) = _ ∨
    F32.div a (F32.fin false 0 0) = _
  cases a with
  | nan => left; rfl
  | inf n => cases n <;> simp [F32.div]
  | fin n m x =>
    by_cases hm : m = 0
    · left; simp [F32.div, hm]
    · cases n <;> simp [F32.div, hm]

theorem F32.bitLenAux_pos (fuel n : Nat) (h : n ≤ fuel) (hn : n ≠ 0) :
    1 ≤ F32.bitLenAux fuel n := by
  cases fuel with
  | zero => omega
  | succ f =>
    rw [F32.bitLenAux, if_neg hn]
    omega

theorem F32.pow_bitLenAux_le (fuel : Nat) : ∀ n : Nat, n ≤ fuel → n ≠ 0 →
    2 ^ (F32.bitLenAux fuel n - 1) ≤ n := by
  induction fuel with
  | zero => intro n h hn; omega
  | succ f ih =>
    intro n h hn
    rw [F32.bitLenAux, if_neg hn, Nat.add_sub_cancel]
    by_cases h2 : n / 2 = 0
    · rw [h2]
      have : F32.bitLenAux f 0 = 0 := by cases f <;> simp [F32.bitLenAux]
      rw [this]
      simp
      omega
    · have hle : n / 2 ≤ f := by omega
      have h3 := ih (n / 2) hle h2
      have h4 := F32.bitLenAux_pos f (n / 2) hle h2
      have h5 : 2 ^ F32.bitLenAux f (n / 2) = 2 * 2 ^ (F32.bitLenAux f (n / 2) - 1) := by
        rw [← Nat.pow_succ']
        congr 1
        omega
      rw [h5]
      omega

theorem F32.pow_bitLen_le (n : Nat) (hn : n ≠ 0) : 2 ^ (F32.bitLen n - 1) ≤ n :=
  F32.pow_bitLenAux_le n n (le_refl n) hn

theorem F32.bitLen_pos (n : Nat) (hn : n ≠ 0) : 1 ≤ F32.bitLen n :=
  F32.bitLenAux_pos n n (le_refl n) hn

theorem F32.le_roundShift (q k : Nat) (sticky : Bool) : q / 2 ^ k ≤ F32.roundShift q k sticky := by
  unfold F32.roundShift
  split_ifs <;> omega

/-- The mantissa obtained for a positive integer is not 0. -/
theorem F32.mantOf_natCast_ne_zero (c : Nat) (hc : 0 < c) : F32.mantOf c false 149 ≠ 0 := by
  have hc0 : c ≠ 0 := by omega
  have hb := F32.bitLen_pos c hc0
  have hp := F32.pow_bitLen_le c hc0
  have he : F32.expOf c 149 = 125 + (F32.bitLen c : Int) := by
    unfold F32.expOf
    rw [if_neg (by omega)]
    omega
  unfold F32.mantOf
  rw [he]
  by_cases hk : 125 + (F32.bitLen c : Int) - 149 ≤ 0
  · rw [if_pos hk]
    exact Nat.mul_ne_zero hc0 (by positivity)
  · rw [if_neg hk]
    have hk2 : (125 + (F32.bitLen c : Int) - 149).toNat ≤ F32.bitLen c - 1 := by omega
    have h1 : 2 ^ (125 + (F32.bitLen c : Int) - 149).toNat ≤ c :=
      Nat.le_trans (Nat.pow_le_pow_right (by decide) hk2) hp
    have h2 : 1 ≤ c / 2 ^ (125 + (F32.bitLen c : Int) - 149).toNat :=
      (Nat.one_le_div_iff (by positivity)).mpr h1
    have h3 := F32.le_roundShift c (125 + (F32.bitLen c : Int) - 149).toNat false
    omega

/-- A positive unsigned integer converts to positive infinity or to a positive finite
float with a nonzero mantissa. -/
theorem F32.natCast_pos_cases (c : Nat) (hc : 0 < c) :
    ((c : Nat) : F32) = F32.inf false ∨
      ∃ m x : Nat, m ≠ 0 ∧ ((c : Nat) : F32) = F32.fin false m x := by
  show F32.round false c false 149 = _ ∨ ∃ m x : Nat, m ≠ 0 ∧ F32.round false c false 149 = _
  have hm := F32.mantOf_natCast_ne_zero c hc
  unfold F32.round
  rw [if_neg hm]
  split_ifs
  · left; rfl
  · right; exact ⟨8388608, _, by decide, rfl⟩
  · left; rfl
  · right; exact ⟨_, _, hm, rfl⟩

theorem F32.zero_div_natCast (c : Nat) (hc : 0 < c) : (0 : F32) / ((c : Nat) : F32) = 0 := by
  rw [F32.zero_eq]
  rcases F32.natCast_pos_cases c hc with h | ⟨m, x, hm, h⟩
  · rw [h]; rfl
  · rw [h]
    show F32.div (F32.fin false 0 0) (F32.fin false m x) = _
    simp [F32.div, hm]

theorem F32.natCast_pos (c : Nat) (hc : 0 < c) : (0 : F32) < ((c : Nat) : F32) := by
  rw [F32.zero_eq, F32.lt_iff]
  rcases F32.natCast_pos_cases c hc with h | ⟨m, x, hm, h⟩
  · rw [h]
    refine ⟨rfl, rfl, Or.inl ?_⟩
    decide
  · rw [h]
    refine ⟨rfl, rfl, Or.inr ⟨rfl, ?_⟩⟩
    show ((0 * 2 ^ 0 : Nat) : Int) < ((m * 2 ^ x : Nat) : Int)
    have : 0 < m * 2 ^ x := Nat.mul_pos (by omega) (by positivity)
    omega

theorem F32.foldl_add_replicate (t v : F32) (h : t + v = t) (n : Nat) :
    (List.replicate n v).foldl (fun a b => a + b) t = t := by
  induction n with
  | zero => rfl
  | succ n ih => rw [List.replicate_succ, List.foldl_cons, h, ih]

/-! ## Aggregates along a sequence of inclusions -/

theorem count_includeAll (xs : List Val) : ∀ s : Measure, s.count < countModulus →
    (s.includeAll xs).count = (s.count + xs.length) % countModulus := by
  induction xs with
  | nil =>
    intro s h
    simp [Nat.mod_eq_of_lt h]
  | cons v xs ih =>
    intro s _
    have hlt : (s.include v).count < countModulus := Nat.mod_lt _ (by decide)
    rw [includeAll_cons, ih (s.include v) hlt]
    simp only [Measure.include, List.length_cons, countModulus]
    omega

/-- The total is the float sum accumulated left to right, one rounded addition per value. -/
theorem total_includeAll (xs : List Val) : ∀ s : Measure,
    (s.includeAll xs).total = xs.foldl (fun a b => a + b) s.total := by
  induction xs with
  | nil => intro s; rfl
  | cons v xs ih =>
    intro s
    rw [includeAll_cons, ih, List.foldl_cons]
    rfl

theorem average_include (s : Measure) (v : Val) :
    (s.include v).average = (s.include v).total / (((s.include v).count : Nat) : Val) := rfl

theorem average_includeAll (s : Measure) (xs : List Val) (hne : xs ≠ []) :
    (s.includeAll xs).average =
      (s.includeAll xs).total / (((s.includeAll xs).count : Nat) : Val) := by
  rcases List.eq_nil_or_concat xs with h | ⟨L, b, h⟩
  · exact absurd h hne
  · rw [h, List.concat_eq_append, includeAll_append]
    exact average_include _ b

theorem extrema_include_seed (s : Measure) (v : Val) (h : s.new_min_max = true) :
    (s.include v).maxvalue = v ∧ (s.include v).minvalue = v := by
  simp [Measure.include, h]

theorem include_maxvalue (s : Measure) (v : Val) (h : s.new_min_max = false) :
    (s.include v).maxvalue = if v > s.maxvalue then v else s.maxvalue := by
  simp [Measure.include, h]

theorem include_minvalue (s : Measure) (v : Val) (h : s.new_min_max = false) :
    (s.include v).minvalue = if v < s.minvalue then v else s.minvalue := by
  simp [Measure.include, h]

@[simp]
theorem include_new_min_max (s : Measure) (v : Val) :
    (s.include v).new_min_max = false := rfl

/-- Once seeded with a value that is not NaN, the extrema are elements of the values seen,
are not NaN, and bound every value seen that is not NaN. -/
theorem extrema_includeAll (xs : List Val) : ∀ (s : Measure) (seen : List Val),
    s.new_min_max = false →
    (s.maxvalue ∈ seen ∧ s.maxvalue ≠ F32.nan ∧ ∀ x ∈ seen, x ≠ F32.nan → x ≤ s.maxvalue) →
    (s.minvalue ∈ seen ∧ s.minvalue ≠ F32.nan ∧ ∀ x ∈ seen, x ≠ F32.nan → s.minvalue ≤ x) →
    (s.includeAll xs).new_min_max = false ∧
      ((s.includeAll xs).maxvalue ∈ seen ++ xs ∧ (s.includeAll xs).maxvalue ≠ F32.nan ∧
        ∀ x ∈ seen ++ xs, x ≠ F32.nan → x ≤ (s.includeAll xs).maxvalue) ∧
      ((s.includeAll xs).minvalue ∈ seen ++ xs ∧ (s.includeAll xs).minvalue ≠ F32.nan ∧
        ∀ x ∈ seen ++ xs, x ≠ F32.nan → (s.includeAll xs).minvalue ≤ x) := by
  induction xs with
  | nil =>
    intro s seen h hmax hmin
    simpa using ⟨h, hmax, hmin⟩
  | cons v xs ih =>
    intro s seen h hmax hmin
    obtain ⟨m1, m2, m3⟩ := hmax
    obtain ⟨n1, n2, n3⟩ := hmin
    have hmax2 : (s.include v).maxvalue ∈ seen ++ [v] ∧ (s.include v).maxvalue ≠ F32.nan ∧
        ∀ x ∈ seen ++ [v], x ≠ F32.nan → x ≤ (s.include v).maxvalue := by
      rw [include_maxvalue s v h]
      by_cases hv : v > s.maxvalue
      · rw [if_pos hv]
        have hvn : v ≠ F32.nan := (F32.ne_nan_of_lt hv).2
        refine ⟨by simp, hvn, ?_⟩
        intro x hx hxn
        rcases List.mem_append.mp hx with hx1 | hx1
        · exact F32.le_trans (m3 x hx1 hxn) (F32.le_of_lt hv)
        · rw [List.mem_singleton.mp hx1]
          exact F32.le_self hvn
      · rw [if_neg hv]
        refine ⟨by simp [m1], m2, ?_⟩
        intro x hx hxn
        rcases List.mem_append.mp hx with hx1 | hx1
        · exact m3 x hx1 hxn
        · rw [List.mem_singleton.mp hx1] at hxn ⊢
          exact F32.le_of_not_lt m2 hxn hv
    have hmin2 : (s.include v).minvalue ∈ seen ++ [v] ∧ (s.include v).minvalue ≠ F32.nan ∧
        ∀ x ∈ seen ++ [v], x ≠ F32.nan → (s.include v).minvalue ≤ x := by
      rw [include_minvalue s v h]
      by_cases hv : v < s.minvalue
      · rw [if_pos hv]
        have hvn : v ≠ F32.nan := (F32.ne_nan_of_lt hv).1
        refine ⟨by simp, hvn, ?_⟩
        intro x hx hxn
        rcases List.mem_append.mp hx with hx1 | hx1
        · exact F32.le_trans (F32.le_of_lt hv) (n3 x hx1 hxn)
        · rw [List.mem_singleton.mp hx1]
          exact F32.le_self hvn
      · rw [if_neg hv]
        refine ⟨by simp [n1], n2, ?_⟩
        intro x hx hxn
        rcases List.mem_append.mp hx with hx1 | hx1
        · exact n3 x hx1 hxn
        · rw [List.mem_singleton.mp hx1] at hxn ⊢
          exact F32.le_of_not_lt hxn n2 hv
    have h3 := ih (s.include v) (seen ++ [v]) rfl hmax2 hmin2
    simpa using h3

/-- Starting with unseeded extrema, a sequence whose first value is not NaN leaves the
largest and the smallest of its values that are not NaN. -/
theorem extrema_of_unseeded (s : Measure) (v : Val) (rest : List Val)
    (h : s.new_min_max = true) (hv : v ≠ F32.nan) :
    (s.includeAll (v :: rest)).new_min_max = false ∧
      ((s.includeAll (v :: rest)).maxvalue ∈ v :: rest ∧
        (s.includeAll (v :: rest)).maxvalue ≠ F32.nan ∧
        ∀ x ∈ v :: rest, x ≠ F32.nan → x ≤ (s.includeAll (v :: rest)).maxvalue) ∧
      ((s.includeAll (v :: rest)).minvalue ∈ v :: rest ∧
        (s.includeAll (v :: rest)).minvalue ≠ F32.nan ∧
        ∀ x ∈ v :: rest, x ≠ F32.nan → (s.includeAll (v :: rest)).minvalue ≤ x) := by
  obtain ⟨e1, e2⟩ := extrema_include_seed s v h
  have h3 := extrema_includeAll rest (s.include v) [v] rfl
    (by
      rw [e1]
      refine ⟨by simp, hv, ?_⟩
      intro x hx hxn
      rw [List.mem_singleton.mp hx]
      exact F32.le_self hv)
    (by
      rw [e2]
      refine ⟨by simp, hv, ?_⟩
      intro x hx hxn
      rw [List.mem_singleton.mp hx]
      exact F32.le_self hv)
  simpa using h3

/-- Count, total and average after including `xs` into an instance whose counter and
total are 0. -/
theorem aggregates_from_zero (s : Measure) (xs : List Val)
    (hc : s.count = 0) (ht : s.total = 0) :
    (s.includeAll xs).count = xs.length % countModulus ∧
      (s.includeAll xs).total = xs.foldl (fun a b => a + b) 0 ∧
      (xs ≠ [] →
        (s.includeAll xs).average =
          (s.includeAll xs).total / (((s.includeAll xs).count : Nat) : Val)) := by
  refine ⟨?_, ?_, average_includeAll s xs⟩
  · rw [count_includeAll xs s (by rw [hc]; decide), hc, Nat.zero_add]
  · rw [total_includeAll, ht]

/-! ## Aggregate claims -/

/-- C4, as stated, fails, in two ways.  The inclusion counter is 32 bits wide, so after
2^32 inclusions into a just cleared instance `getCount()` is 0, not the length of the
sequence.  The total is a `float`: after including 16777216 and 1 into a just cleared
instance `getTotal()` is 16777216, the addition of 1 being rounded away, so it is not the
sum of the values (compared exactly, in units of 2^-149). -/
theorem aggregate_count_wraps :
    ¬ (((Measure.fresh 1 (fun _ => 0) 0).clear.includeAll
          (List.replicate 4294967296 0)).getCount =
        (List.replicate 4294967296 (0 : Val)).length) ∧
      ((Measure.fresh 1 (fun _ => 0) 0).clear.includeAll [16777216, 1]).getTotal = 16777216 ∧
      ¬ (((Measure.fresh 1 (fun _ => 0) 0).clear.includeAll [16777216, 1]).getTotal.mag =
        (16777216 : Val).mag + (1 : Val).mag) := by
  refine ⟨?_, by decide!, by decide!⟩
  have h := count_includeAll (List.replicate 4294967296 0)
    (Measure.fresh 1 (fun _ => 0) 0).clear (by decide)
  rw [List.length_replicate] at h
  rw [Measure.getCount, h, List.length_replicate]
  decide

/-- C4, amended. For every sequence `xs` included one by one into an instance whose
inclusion counter and total are 0 (as `clear()` leaves them), afterwards `getCount()` is
`length xs` modulo 2^32, hence `length xs` when that is below 2^32, `getTotal()` is the
float sum of `xs` accumulated left to right from 0, one rounded addition per value, and,
when `xs` is not empty, `getAverage()` is the float quotient of `getTotal()` and
`getCount()` converted to float.  Nothing here depends on the capacity of the ring. -/
theorem aggregate_count_sum_average (s : Measure) (xs : List Val)
    (hc : s.count = 0) (ht : s.total = 0) :
    (s.includeAll xs).getCount = xs.length % countModulus ∧
      (xs.length < countModulus → (s.includeAll xs).getCount = xs.length) ∧
      (s.includeAll xs).getTotal = xs.foldl (fun a b => a + b) 0 ∧
      (xs ≠ [] →
        (s.includeAll xs).getAverage =
          (s.includeAll xs).getTotal / (((s.includeAll xs).getCount : Nat) : Val)) := by
  obtain ⟨hcount, htotal, havg⟩ := aggregates_from_zero s xs hc ht
  refine ⟨hcount, ?_, htotal, havg⟩
  intro hlt
  rw [Measure.getCount, hcount, Nat.mod_eq_of_lt hlt]

/-- Witness for C4 (amended): capacity 2, cleared, three values 5, 1, 9. -/
theorem aggregate_count_sum_average_witness :
    (Measure.fresh 2 (fun _ => 7) 9).clear.count = 0 ∧
    (Measure.fresh 2 (fun _ => 7) 9).clear.total = 0 ∧
    ((Measure.fresh 2 (fun _ => 7) 9).clear.includeAll [5, 1, 9]).getCount = 3 ∧
    ((Measure.fresh 2 (fun _ => 7) 9).clear.includeAll [5, 1, 9]).getTotal = 15 ∧
    ((Measure.fresh 2 (fun _ => 7) 9).clear.includeAll [5, 1, 9]).getAverage = 5 := by
  obtain ⟨h1, _, h3, h4⟩ :=
    aggregate_count_sum_average (Measure.fresh 2 (fun _ => 7) 9).clear [5, 1, 9] rfl rfl
  have h5 := h4 (by decide)
  refine ⟨rfl, rfl, by rw [h1]; decide, by rw [h3]; decide!, ?_⟩
  rw [h5, h3, h1]
  decide!

/-- C5, as stated, fails: values may be NaN.  Including NaN, 1, 2 into a fresh instance
seeds both extrema with NaN, and since every comparison with NaN is false they stay NaN:
`getMax()` is not the largest value 2 and `getMin()` is not the smallest value 1. -/
theorem extrema_stuck_at_nan :
    ((Measure.fresh 2 (fun _ => 0) 0).includeAll [F32.nan, 1, 2]).getMax = F32.nan ∧
      ((Measure.fresh 2 (fun _ => 0) 0).includeAll [F32.nan, 1, 2]).getMin = F32.nan ∧
      ((Measure.fresh 2 (fun _ => 0) 0).includeAll [F32.nan, 1, 2]).getMax ≠ 2 ∧
      ((Measure.fresh 2 (fun _ => 0) 0).includeAll [F32.nan, 1, 2]).getMin ≠ 1 ∧
      ¬ ((2 : Val) ≤ ((Measure.fresh 2 (fun _ => 0) 0).includeAll [F32.nan, 1, 2]).getMax) := by
  refine ⟨by decide!, by decide!, by decide!, by decide!, by decide!⟩

/-- C5, amended. For every non-empty sequence `xs` whose first value is not NaN, included
one by one into a freshly constructed or just cleared instance, `getMax()` is the largest
and `getMin()` the smallest of the values of `xs` that are not NaN: each is one of the
values, is not NaN, and bounds all the others; the first inclusion seeds both extrema with
the value itself, so an all-positive sequence has a positive minimum and an all-negative
one a negative maximum. -/
theorem aggregate_extrema (s : Measure) (xs : List Val)
    (hstart : (∃ retained mem cnt, s = Measure.fresh retained mem cnt) ∨
      (∃ t : Measure, s = t.clear))
    (hne : xs ≠ []) (hhead : xs.head? ≠ some F32.nan) :
    ((s.includeAll xs).getMax ∈ xs ∧ (s.includeAll xs).getMax ≠ F32.nan ∧
        ∀ x ∈ xs, x ≠ F32.nan → x ≤ (s.includeAll xs).getMax) ∧
      ((s.includeAll xs).getMin ∈ xs ∧ (s.includeAll xs).getMin ≠ F32.nan ∧
        ∀ x ∈ xs, x ≠ F32.nan → (s.includeAll xs).getMin ≤ x) ∧
      (∀ v : Val, (s.include v).getMax = v ∧ (s.include v).getMin = v) ∧
      ((∀ x ∈ xs, 0 < x) → 0 < (s.includeAll xs).getMin) ∧
      ((∀ x ∈ xs, x < 0) → (s.includeAll xs).getMax < 0) := by
  have hnew : s.new_min_max = true := by
    rcases hstart with ⟨r, m, c, rfl⟩ | ⟨t, rfl⟩
    · rfl
    · rfl
  cases xs with
  | nil => exact absurd rfl hne
  | cons v rest =>
    have hv : v ≠ F32.nan := by
      intro e
      apply hhead
      rw [e]
      rfl
    obtain ⟨_, hmax, hmin⟩ := extrema_of_unseeded s v rest hnew hv
    refine ⟨hmax, hmin, fun w => extrema_include_seed s w hnew, ?_, ?_⟩
    · intro hpos
      exact hpos _ hmin.1
    · intro hneg
      exact hneg _ hmax.1

/-- Witness for C5 (amended): a cleared instance and the all-negative values -5, -1, -9,
and the values 1, NaN, 2, where the NaN is ignored. -/
theorem aggregate_extrema_witness :
    ([-5, -1, -9] : List Val) ≠ [] ∧
    ([-5, -1, -9] : List Val).head? ≠ some F32.nan ∧
    ((Measure.fresh 2 (fun _ => 7) 9).clear.includeAll [-5, -1, -9]).getMax = -1 ∧
    ((Measure.fresh 2 (fun _ => 7) 9).clear.includeAll [-5, -1, -9]).getMin = -9 ∧
    ((Measure.fresh 2 (fun _ => 7) 9).clear.includeAll [1, F32.nan, 2]).getMax = 2 ∧
    ((Measure.fresh 2 (fun _ => 7) 9).clear.includeAll [1, F32.nan, 2]).getMin = 1 ∧
    ((Measure.fresh 2 (fun _ => 7) 9).clear.includeAll [-5, -1, -9]).getMax ∈
      ([-5, -1, -9] : List Val) :=
  ⟨by decide, by decide, by decide!, by decide!, by decide!, by decide!,
    (aggregate_extrema (Measure.fresh 2 (fun _ => 7) 9).clear [-5, -1, -9]
      (Or.inr ⟨Measure.fresh 2 (fun _ => 7) 9, rfl⟩) (by decide) (by decide)).1.1⟩

/-- C6, as stated, fails, in three ways.  After `resetAvg()` the 32-bit counter restarts
at 0 and wraps, so 2^32 further inclusions leave `getCount()` at 0, not at the length of
`ys`.  With `ys` = 16777216, 1 the float total is 16777216, not the sum of `ys`.  With
`xs` = NaN the extrema are seeded with NaN and stay NaN when 1 is included. -/
theorem resetAvg_count_wraps :
    ¬ ((((Measure.fresh 1 (fun _ => 0) 0).includeAll [5]).resetAvg.includeAll
          (List.replicate 4294967296 0)).getCount =
        (List.replicate 4294967296 (0 : Val)).length) ∧
      (((Measure.fresh 1 (fun _ => 0) 0).includeAll [5]).resetAvg.includeAll
          [16777216, 1]).getTotal = 16777216 ∧
      ¬ ((((Measure.fresh 1 (fun _ => 0) 0).includeAll [5]).resetAvg.includeAll
          [16777216, 1]).getTotal.mag = (16777216 : Val).mag + (1 : Val).mag) ∧
      (((Measure.fresh 1 (fun _ => 0) 0).includeAll [F32.nan]).resetAvg.includeAll
          [1]).getMax = F32.nan ∧
      (((Measure.fresh 1 (fun _ => 0) 0).includeAll [F32.nan]).resetAvg.includeAll
          [1]).getMax ≠ 1 := by
  refine ⟨?_, by decide!, by decide!, by decide!, by decide!⟩
  have h := count_includeAll (List.replicate 4294967296 0)
    ((Measure.fresh 1 (fun _ => 0) 0).includeAll [5]).resetAvg (by decide)
  rw [List.length_replicate] at h
  rw [Measure.getCount, h, List.length_replicate]
  decide

/-- C6, amended. For non-empty `xs` and non-empty `ys`: including `xs` into a fresh
instance, calling `resetAvg()`, then including `ys` gives `getCount() = length ys` modulo
2^32 (so `length ys` when that is below 2^32), `getTotal()` the float sum of `ys`
accumulated left to right from 0, `getAverage()` the float quotient of `getTotal()` and
`getCount()` converted to float, while, when the first value of `xs` is not NaN,
`getMax()` and `getMin()` are the largest and the smallest of the values of `xs ++ ys`
that are not NaN. -/
theorem resetAvg_keeps_extrema (retained : Nat) (mem : Int → Val) (cnt : Nat)
    (xs ys : List Val) (hxs : xs ≠ []) (hys : ys ≠ []) :
    (((Measure.fresh retained mem cnt).includeAll xs).resetAvg.includeAll ys).getCount =
        ys.length % countModulus ∧
      (ys.length < countModulus →
        (((Measure.fresh retained mem cnt).includeAll xs).resetAvg.includeAll ys).getCount =
          ys.length) ∧
      (((Measure.fresh retained mem cnt).includeAll xs).resetAvg.includeAll ys).getTotal =
        ys.foldl (fun a b => a + b) 0 ∧
      (((Measure.fresh retained mem cnt).includeAll xs).resetAvg.includeAll ys).getAverage =
        (((Measure.fresh retained mem cnt).includeAll xs).resetAvg.includeAll ys).getTotal /
          (((((Measure.fresh retained mem cnt).includeAll xs).resetAvg.includeAll
            ys).getCount : Nat) : Val) ∧
      (xs.head? ≠ some F32.nan →
        ((((Measure.fresh retained mem cnt).includeAll xs).resetAvg.includeAll ys).getMax ∈
            xs ++ ys ∧
          (((Measure.fresh retained mem cnt).includeAll xs).resetAvg.includeAll ys).getMax ≠
            F32.nan ∧
          ∀ x ∈ xs ++ ys, x ≠ F32.nan →
            x ≤ (((Measure.fresh retained mem cnt).includeAll xs).resetAvg.includeAll
              ys).getMax) ∧
        ((((Measure.fresh retained mem cnt).includeAll xs).resetAvg.includeAll ys).getMin ∈
            xs ++ ys ∧
          (((Measure.fresh retained mem cnt).includeAll xs).resetAvg.includeAll ys).getMin ≠
            F32.nan ∧
          ∀ x ∈ xs ++ ys, x ≠ F32.nan →
            (((Measure.fresh retained mem cnt).includeAll xs).resetAvg.includeAll
              ys).getMin ≤ x)) := by
  obtain ⟨hcount, htotal, havg⟩ :=
    aggregates_from_zero ((Measure.fresh retained mem cnt).includeAll xs).resetAvg ys
      rfl rfl
  refine ⟨hcount, ?_, htotal, havg hys, ?_⟩
  · intro hlen
    rw [Measure.getCount, hcount, Nat.mod_eq_of_lt hlen]
  · intro hhead
    cases xs with
    | nil => exact absurd rfl hxs
    | cons v rest =>
      have hv : v ≠ F32.nan := by
        intro e
        apply hhead
        rw [e]
        rfl
      obtain ⟨hnew, hmax, hmin⟩ :=
        extrema_of_unseeded (Measure.fresh retained mem cnt) v rest rfl hv
      obtain ⟨_, hmax2, hmin2⟩ :=
        extrema_includeAll ys
          ((Measure.fresh retained mem cnt).includeAll (v :: rest)).resetAvg (v :: rest)
          hnew hmax hmin
      exact ⟨hmax2, hmin2⟩

/-- Witness for C6 (amended): `xs = [5, 1, 9]`, `ys = [3]` gives count 1, total 3,
average 3, maximum 9 and minimum 1. -/
theorem resetAvg_keeps_extrema_witness :
    (((Measure.fresh 3 (fun _ => 7) 5).includeAll [5, 1, 9]).resetAvg.includeAll [3]).getCount
        = 1 ∧
      (((Measure.fresh 3 (fun _ => 7) 5).includeAll [5, 1, 9]).resetAvg.includeAll [3]).getTotal
        = 3 ∧
      (((Measure.fresh 3 (fun _ => 7) 5).includeAll [5, 1, 9]).resetAvg.includeAll [3]).getAverage
        = 3 ∧
      (((Measure.fresh 3 (fun _ => 7) 5).includeAll [5, 1, 9]).resetAvg.includeAll [3]).getMax
        = 9 ∧
      (((Measure.fresh 3 (fun _ => 7) 5).includeAll [5, 1, 9]).resetAvg.includeAll [3]).getMin
        = 1 := by
  obtain ⟨_, h1, h2, _, _⟩ :=
    resetAvg_keeps_extrema 3 (fun _ => 7) 5 [5, 1, 9] [3] (by decide) (by decide)
  refine ⟨h1 (by decide), ?_, by decide!, by decide!, by decide!⟩
  rw [h2]
  decide!

/-! ## Accessors and resets -/

/-- C7. Index clamping: for capacity at least 1 and every integer `index`,
`getMember(index)` returns the buffer slot `clamp(index, 0, capacity-1)`, which lies in
`0 .. capacity-1`; in particular `getMember(-5) = getMember(0)` and
`getMember(capacity+100) = getMember(capacity-1)`. -/
theorem getMember_clamps (s : Measure) (index : Int) (hcap : 1 ≤ s.capacity) :
    s.getMember index = s.values (max 0 (min index ((s.capacity : Int) - 1))) ∧
      0 ≤ max 0 (min index ((s.capacity : Int) - 1)) ∧
      max 0 (min index ((s.capacity : Int) - 1)) ≤ (s.capacity : Int) - 1 ∧
      s.getMember (-5) = s.getMember 0 ∧
      s.getMember ((s.capacity : Int) + 100) = s.getMember ((s.capacity : Int) - 1) := by
  have hc : (1 : Int) ≤ (s.capacity : Int) := by exact_mod_cast hcap
  refine ⟨?_, le_max_left _ _, ?_, ?_, ?_⟩
  · unfold Measure.getMember
    by_cases h1 : index < 0
    · have e : max 0 (min index ((s.capacity : Int) - 1)) = 0 := by omega
      rw [if_pos h1, e]
    · by_cases h2 : index ≥ (s.capacity : Int)
      · have e : max 0 (min index ((s.capacity : Int) - 1)) = (s.capacity : Int) - 1 := by
          omega
        rw [if_neg h1, if_pos h2, e]
      · have e : max 0 (min index ((s.capacity : Int) - 1)) = index := by omega
        rw [if_neg h1, if_neg h2, e]
  · omega
  · unfold Measure.getMember
    rw [if_pos (by omega), if_neg (by omega), if_neg (by omega)]
  · unfold Measure.getMember
    rw [if_neg (by omega), if_pos (by omega), if_neg (by omega), if_neg (by omega)]

/-- Witness for C7: capacity 3 holding 4, 6, 8 and the out-of-range index 9. -/
theorem getMember_clamps_witness :
    1 ≤ ((Measure.fresh 3 (fun _ => 7) 5).includeAll [4, 6, 8]).capacity ∧
    ((Measure.fresh 3 (fun _ => 7) 5).includeAll [4, 6, 8]).getMember 9 = 8 ∧
    ((Measure.fresh 3 (fun _ => 7) 5).includeAll [4, 6, 8]).getMember (-5) =
      ((Measure.fresh 3 (fun _ => 7) 5).includeAll [4, 6, 8]).getMember 0 :=
  ⟨by decide, by decide,
    (getMember_clamps ((Measure.fresh 3 (fun _ => 7) 5).includeAll [4, 6, 8]) 9
      (by decide)).2.2.2.1⟩

/-- C8. `clear()`: from every state it sets total, average, inclusion count, maximum and
minimum to 0 and the min/max flag to true, and leaves buffer, stored count and capacity
unchanged.  With capacity 2, including 5, 1, 9 and then clearing gives count, total,
average, maximum and minimum 0 while `getStored() = 2` and `getMember(1) = 9`. -/
theorem clear_effect (s : Measure) :
    s.clear.total = 0 ∧ s.clear.average = 0 ∧ s.clear.count = 0 ∧
      s.clear.maxvalue = 0 ∧ s.clear.minvalue = 0 ∧ s.clear.new_min_max = true ∧
      s.clear.values = s.values ∧ s.clear.stored = s.stored ∧
      s.clear.capacity = s.capacity ∧
      (∀ (mem : Int → Val) (cnt : Nat),
        ((Measure.fresh 2 mem cnt).includeAll [5, 1, 9]).clear.getCount = 0 ∧
        ((Measure.fresh 2 mem cnt).includeAll [5, 1, 9]).clear.getTotal = 0 ∧
        ((Measure.fresh 2 mem cnt).includeAll [5, 1, 9]).clear.getAverage = 0 ∧
        ((Measure.fresh 2 mem cnt).includeAll [5, 1, 9]).clear.getMax = 0 ∧
        ((Measure.fresh 2 mem cnt).includeAll [5, 1, 9]).clear.getMin = 0 ∧
        ((Measure.fresh 2 mem cnt).includeAll [5, 1, 9]).clear.getStored = 2 ∧
        ((Measure.fresh 2 mem cnt).includeAll [5, 1, 9]).clear.getMember 1 = 9) := by
  refine ⟨rfl, rfl, rfl, rfl, rfl, rfl, rfl, rfl, rfl, ?_⟩
  intro mem cnt
  obtain ⟨hst, hslot⟩ :=
    ring_slots_after_overflow 2 mem cnt [5, 1, 9] (by decide) (by decide)
  refine ⟨rfl, rfl, rfl, rfl, rfl, hst, ?_⟩
  have h := hslot 1 (by decide)
  have hm : ((Measure.fresh 2 mem cnt).includeAll [5, 1, 9]).clear.getMember 1 =
      ((Measure.fresh 2 mem cnt).includeAll [5, 1, 9]).values 1 :=
    getMember_of_inRange _ 1 (by decide) (by simp [Measure.clear, Measure.fresh])
  rw [hm]
  simpa using h.symm

/-- Buffer memory after `deleteRetained()`. -/
theorem deleteRetained_values (s : Measure) (j : Int) :
    s.deleteRetained.values j = if 0 ≤ j ∧ j < (s.capacity : Int) then 0 else s.values j := by
  simp only [Measure.deleteRetained, zeroFrom_apply]
  by_cases h : 0 ≤ j ∧ j < (s.capacity : Int)
  · rw [if_pos h, if_pos (by omega)]
  · rw [if_neg h, if_neg (by omega)]

/-- C9. `deleteRetained()`: from every state with capacity at least 1 it sets every buffer
slot to 0 and the stored count to 0, so `getMember(i) = 0` for every integer `i`, and
leaves inclusion count, total, average, maximum, minimum and the min/max flag unchanged.
Including 5, 1, 9 into an instance whose count and total are 0 and then calling
`deleteRetained()` gives `getStored() = 0`, `getCount() = 3`, `getTotal() = 15` and
`getAverage() = 5`. -/
theorem deleteRetained_effect (s : Measure) (hcap : 1 ≤ s.capacity) :
    (∀ i : Int, 0 ≤ i → i < (s.capacity : Int) → s.deleteRetained.values i = 0) ∧
      s.deleteRetained.stored = 0 ∧
      (∀ i : Int, s.deleteRetained.getMember i = 0) ∧
      s.deleteRetained.count = s.count ∧ s.deleteRetained.total = s.total ∧
      s.deleteRetained.average = s.average ∧ s.deleteRetained.maxvalue = s.maxvalue ∧
      s.deleteRetained.minvalue = s.minvalue ∧
      s.deleteRetained.new_min_max = s.new_min_max ∧
      s.deleteRetained.capacity = s.capacity ∧
      (s.count = 0 → s.total = 0 →
        (s.includeAll [5, 1, 9]).deleteRetained.getStored = 0 ∧
        (s.includeAll [5, 1, 9]).deleteRetained.getCount = 3 ∧
        (s.includeAll [5, 1, 9]).deleteRetained.getTotal = 15 ∧
        (s.includeAll [5, 1, 9]).deleteRetained.getAverage = 5) := by
  have hc : (1 : Int) ≤ (s.capacity : Int) := by exact_mod_cast hcap
  have hzero : ∀ i : Int, 0 ≤ i → i < (s.capacity : Int) → s.deleteRetained.values i = 0 := by
    intro i h0 h1
    rw [deleteRetained_values, if_pos ⟨h0, h1⟩]
  refine ⟨hzero, rfl, ?_, rfl, rfl, rfl, rfl, rfl, rfl, rfl, ?_⟩
  · intro i
    have hcap2 : s.deleteRetained.capacity = s.capacity := rfl
    unfold Measure.getMember
    rw [hcap2]
    split_ifs
    · exact hzero 0 (by omega) (by omega)
    · exact hzero _ (by omega) (by omega)
    · exact hzero i (by omega) (by omega)
  · intro h0 ht
    obtain ⟨h1, h3, h4⟩ := aggregates_from_zero s [5, 1, 9] h0 ht
    have h5 := h4 (by decide)
    refine ⟨rfl, ?_, ?_, ?_⟩
    · show (s.includeAll [5, 1, 9]).count = 3
      rw [h1]; decide
    · show (s.includeAll [5, 1, 9]).total = 15
      rw [h3]; decide!
    · show (s.includeAll [5, 1, 9]).average = 5
      rw [h5, h3, h1]
      decide!

/-- Witness for C9: capacity 3 holding 5, 1, 9. -/
theorem deleteRetained_effect_witness :
    1 ≤ ((Measure.fresh 3 (fun _ => 7) 0).includeAll [5, 1, 9]).capacity ∧
    ((Measure.fresh 3 (fun _ => 7) 0).includeAll [5, 1, 9]).getMember 2 = 9 ∧
    (∀ i : Int,
      ((Measure.fresh 3 (fun _ => 7) 0).includeAll [5, 1, 9]).deleteRetained.getMember i = 0) ∧
    ((Measure.fresh 3 (fun _ => 7) 0).includeAll [5, 1, 9]).deleteRetained.getCount = 3 :=
  ⟨by decide, by decide,
    (deleteRetained_effect ((Measure.fresh 3 (fun _ => 7) 0).includeAll [5, 1, 9])
      (by decide)).2.2.1,
    by decide⟩

/-- C10. `resetAvg()`: from every state it sets total, average and inclusion count to 0
and leaves maximum, minimum, the min/max flag, buffer and stored count unchanged. -/
theorem resetAvg_effect (s : Measure) :
    s.resetAvg.total = 0 ∧ s.resetAvg.average = 0 ∧ s.resetAvg.count = 0 ∧
      s.resetAvg.maxvalue = s.maxvalue ∧ s.resetAvg.minvalue = s.minvalue ∧
      s.resetAvg.new_min_max = s.new_min_max ∧ s.resetAvg.values = s.values ∧
      s.resetAvg.stored = s.stored ∧ s.resetAvg.capacity = s.capacity :=
  ⟨rfl, rfl, rfl, rfl, rfl, rfl, rfl, rfl, rfl⟩

/-! ## Initialisation -/

/-- Buffer memory after `begin()`. -/
theorem begin_values (s : Measure) (j : Int) :
    s.begin.values j = if 0 ≤ j ∧ j < (s.capacity : Int) then 0 else s.values j := by
  simp only [Measure.begin, zeroFrom_apply]
  by_cases h : 0 ≤ j ∧ j < (s.capacity : Int)
  · rw [if_pos h, if_pos (by omega)]
  · rw [if_neg h, if_neg (by omega)]

theorem zeroFrom_idem (vals : Int → Val) (i : Int) (n : Nat) :
    zeroFrom (zeroFrom vals i n) i n = zeroFrom vals i n := by
  funext j
  rw [zeroFrom_apply, zeroFrom_apply]
  by_cases h : i ≤ j ∧ j < i + (n : Int)
  · simp only [if_pos h]
  · simp only [if_neg h]

/-- C11. `begin()`: from every state it sets every buffer slot to 0, leaves memory outside
the buffer, stored count, inclusion count, total, average, maximum, minimum, the min/max
flag and the capacity unchanged, and calling it twice gives the same state as calling it
once. -/
theorem begin_effect (s : Measure) :
    (∀ i : Int, 0 ≤ i → i < (s.capacity : Int) → s.begin.values i = 0) ∧
      (∀ i : Int, ¬ (0 ≤ i ∧ i < (s.capacity : Int)) → s.begin.values i = s.values i) ∧
      s.begin.stored = s.stored ∧ s.begin.count = s.count ∧ s.begin.total = s.total ∧
      s.begin.average = s.average ∧ s.begin.maxvalue = s.maxvalue ∧
      s.begin.minvalue = s.minvalue ∧ s.begin.new_min_max = s.new_min_max ∧
      s.begin.capacity = s.capacity ∧
      s.begin.begin = s.begin := by
  refine ⟨?_, ?_, rfl, rfl, rfl, rfl, rfl, rfl, rfl, rfl, ?_⟩
  · intro i h0 h1
    rw [begin_values, if_pos ⟨h0, h1⟩]
  · intro i h
    rw [begin_values, if_neg h]
  · simp only [Measure.begin, zeroFrom_idem]

/-- C12. Evaluation of a default-initialised instance whose storage held 7 in every float
cell and 5 in the counter cell: `getCount()` is 5 and `getMember(0)` is 7, and `begin()`
changes the buffer, so it is not a no-op.  The members that do have a default member
initialiser start as claimed, for every content of the storage. -/
theorem fresh_members_uninitialised :
    (Measure.fresh 2 (fun _ => 7) 5).getCount = 5 ∧
      (Measure.fresh 2 (fun _ => 7) 5).getMember 0 = 7 ∧
      (Measure.fresh 2 (fun _ => 7) 5).begin.getMember 0 = 0 ∧
      (Measure.fresh 2 (fun _ => 7) 5).begin ≠ Measure.fresh 2 (fun _ => 7) 5 ∧
      (∀ (retained : Nat) (mem : Int → Val) (cnt : Nat),
        (Measure.fresh retained mem cnt).stored = 0 ∧
        (Measure.fresh retained mem cnt).total = 0 ∧
        (Measure.fresh retained mem cnt).average = 0 ∧
        (Measure.fresh retained mem cnt).maxvalue = 0 ∧
        (Measure.fresh retained mem cnt).minvalue = 0 ∧
        (Measure.fresh retained mem cnt).new_min_max = true ∧
        (Measure.fresh retained mem cnt).values = mem ∧
        (Measure.fresh retained mem cnt).count = cnt % countModulus) := by
  refine ⟨by decide, by decide, by decide, ?_, ?_⟩
  · intro h
    have h1 : (Measure.fresh 2 (fun _ => 7) 5).begin.getMember 0 =
        (Measure.fresh 2 (fun _ => 7) 5).getMember 0 := by rw [h]
    revert h1
    decide
  · intro retained mem cnt
    exact ⟨rfl, rfl, rfl, rfl, rfl, rfl, rfl, rfl⟩

/-! ## The diagnostic print -/

theorem intersperse_cons_eq (sep a : Token) (l : List Token) :
    List.intersperse sep (a :: l) = a :: l.flatMap (fun t => [sep, t]) := by
  induction l generalizing a with
  | nil => rfl
  | cons b l ih =>
    rw [List.intersperse_cons_cons, ih b]
    rfl

/-- Past its first index the print loop writes a comma before every value. -/
theorem printFrom_later (vals : Int → Val) (first : Int) (n : Nat) : ∀ i : Int, i ≠ first →
    (∀ k : Nat, i + (k : Int) ≠ first) →
    printFrom vals first i n =
      ((List.range n).map fun k : Nat => Token.value (vals (i + (k : Int)))).flatMap
        (fun t => [Token.text ",", t]) := by
  induction n with
  | zero => intro i _ _; rfl
  | succ n ih =>
    intro i hi hall
    have hnext : ∀ k : Nat, i + 1 + (k : Int) ≠ first := by
      intro k
      have h := hall (k + 1)
      intro hk
      apply h
      rw [← hk]
      push_cast
      ring
    have h0 := hall 1
    rw [printFrom, if_pos hi, ih (i + 1) (by simpa using h0) hnext,
      List.range_succ_eq_map, List.map_cons, List.flatMap_cons, List.map_map]
    have e : ((fun k : Nat => Token.value (vals (i + (k : Int)))) ∘ Nat.succ) =
        fun k : Nat => Token.value (vals (i + 1 + (k : Int))) := by
      funext k
      simp only [Function.comp, Nat.succ_eq_add_one]
      congr 2
      push_cast
      ring
    rw [e]
    simp

/-- The print loop started at `first` writes the values separated by single commas. -/
theorem printFrom_first (vals : Int → Val) (first : Int) (n : Nat) :
    printFrom vals first first n =
      List.intersperse (Token.text ",")
        ((List.range n).map fun k : Nat => Token.value (vals (first + (k : Int)))) := by
  cases n with
  | zero => rfl
  | succ n =>
    have hne : first + 1 ≠ first := by omega
    have hall : ∀ k : Nat, first + 1 + (k : Int) ≠ first := by intro k; omega
    rw [printFrom, if_neg (by simp), printFrom_later vals first n (first + 1) hne hall,
      List.range_succ_eq_map, List.map_cons, List.map_map, intersperse_cons_eq]
    have e : ((fun k : Nat => Token.value (vals (first + (k : Int)))) ∘ Nat.succ) =
        fun k : Nat => Token.value (vals (first + 1 + (k : Int))) := by
      funext k
      simp only [Function.comp, Nat.succ_eq_add_one]
      congr 2
      push_cast
      ring
    rw [e]
    simp

/-- C13. `printRetained()`: for every state with `stored ≤ capacity` the items written are
`[`, the stored count, ` of `, the capacity, `]:(`, then the values of the slots
`capacity-stored .. capacity-1` in that order separated by single commas (nothing when
the stored count is 0), then `)` and the line end; every slot read lies in the buffer,
and the instance is unchanged. -/
theorem printRetained_output (s : Measure) (hst : s.stored ≤ s.capacity) :
    s.printRetained.2 =
        [Token.text "[", Token.number s.stored, Token.text " of ", Token.number s.capacity,
          Token.text "]:("] ++
        List.intersperse (Token.text ",")
          ((List.range s.stored).map fun k : Nat =>
            Token.value (s.values ((s.capacity : Int) - (s.stored : Int) + (k : Int)))) ++
        [Token.text ")", Token.endOfLine] ∧
      (∀ k : Nat, k < s.stored →
        0 ≤ (s.capacity : Int) - (s.stored : Int) + (k : Int) ∧
        (s.capacity : Int) - (s.stored : Int) + (k : Int) ≤ (s.capacity : Int) - 1) ∧
      (s.stored = 0 →
        s.printRetained.2 =
          [Token.text "[", Token.number 0, Token.text " of ", Token.number s.capacity,
            Token.text "]:(", Token.text ")", Token.endOfLine]) ∧
      s.printRetained.1 = s := by
  have hn : ((s.capacity : Int) - ((s.capacity : Int) - (s.stored : Int))).toNat = s.stored := by
    omega
  have hout : s.printRetained.2 =
      [Token.text "[", Token.number s.stored, Token.text " of ", Token.number s.capacity,
        Token.text "]:("] ++
      List.intersperse (Token.text ",")
        ((List.range s.stored).map fun k : Nat =>
          Token.value (s.values ((s.capacity : Int) - (s.stored : Int) + (k : Int)))) ++
      [Token.text ")", Token.endOfLine] := by
    simp only [Measure.printRetained, hn, printFrom_first]
  refine ⟨hout, ?_, ?_, rfl⟩
  · intro k hk
    omega
  · intro h0
    rw [hout, h0]
    rfl

/-- Witness for C13: capacity 3 after including 7 and 8 prints 7 then 8 inside
`[2 of 3]:(...)`. -/
theorem printRetained_output_witness :
    ((Measure.fresh 3 (fun _ => 0) 0).includeAll [7, 8]).stored ≤
        ((Measure.fresh 3 (fun _ => 0) 0).includeAll [7, 8]).capacity ∧
      ((Measure.fresh 3 (fun _ => 0) 0).includeAll [7, 8]).printRetained.2 =
        [Token.text "[", Token.number 2, Token.text " of ", Token.number 3,
          Token.text "]:(", Token.value 7, Token.text ",", Token.value 8,
          Token.text ")", Token.endOfLine] := by
  have h := (printRetained_output ((Measure.fresh 3 (fun _ => 0) 0).includeAll [7, 8])
    (by decide)).1
  refine ⟨by decide, ?_⟩
  rw [h]
  decide

/-! ## The division in `include` -/

theorem include_count (s : Measure) (v : Val) :
    (s.include v).count = (s.count + 1) % countModulus := rfl

theorem include_average (s : Measure) (v : Val) :
    (s.include v).average = (s.total + v) / ((s.includeDivisor : Nat) : Val) := rfl

/-- State after `clear()`, `include(1)` and `n` times `include(0)`: the counter has
counted every call and the total is still 1. -/
theorem one_then_zeros (s : Measure) (n : Nat) :
    (s.clear.includeAll (1 :: List.replicate n 0)).count = (n + 1) % countModulus ∧
      (s.clear.includeAll (1 :: List.replicate n 0)).total = 1 := by
  constructor
  · rw [count_includeAll _ s.clear (show (0 : Nat) < countModulus by decide),
      List.length_cons, List.length_replicate]
    show (0 + (n + 1)) % countModulus = _
    rw [Nat.zero_add]
  · rw [total_includeAll, List.foldl_cons]
    have e : s.clear.total + (1 : Val) = 1 := by
      show (0 : Val) + 1 = 1
      decide!
    rw [e]
    exact F32.foldl_add_replicate 1 0 (by decide!) n

/-- C14, as stated, fails: `include` has no guard.  After `clear()`, `include(1)` and
2^32 - 2 times `include(0)` the counter is 2^32 - 1 and the total 1; the next `include(0)`
increments the counter to 0, divides 1 by 0 and stores positive infinity in `average`:
the division is not skipped and `average` is not 0. -/
theorem include_divides_by_zero_at_wrap :
    ((Measure.fresh 1 (fun _ => 0) 0).clear.includeAll
        (1 :: List.replicate 4294967294 0)).count = 4294967295 ∧
      ((Measure.fresh 1 (fun _ => 0) 0).clear.includeAll
        (1 :: List.replicate 4294967294 0)).includeDivisor = 0 ∧
      (((Measure.fresh 1 (fun _ => 0) 0).clear.includeAll
        (1 :: List.replicate 4294967294 0)).include 0).getCount = 0 ∧
      (((Measure.fresh 1 (fun _ => 0) 0).clear.includeAll
        (1 :: List.replicate 4294967294 0)).include 0).getAverage = F32.inf false ∧
      (((Measure.fresh 1 (fun _ => 0) 0).clear.includeAll
        (1 :: List.replicate 4294967294 0)).include 0).getAverage ≠ 0 := by
  obtain ⟨hc, ht⟩ := one_then_zeros (Measure.fresh 1 (fun _ => 0) 0) 4294967294
  have h1 : ((Measure.fresh 1 (fun _ => 0) 0).clear.includeAll
      (1 :: List.replicate 4294967294 0)).count = 4294967295 := by
    rw [hc]
    decide
  have hd : ((Measure.fresh 1 (fun _ => 0) 0).clear.includeAll
      (1 :: List.replicate 4294967294 0)).includeDivisor = 0 := by
    rw [Measure.includeDivisor, h1]
    decide
  have ha : (((Measure.fresh 1 (fun _ => 0) 0).clear.includeAll
      (1 :: List.replicate 4294967294 0)).include 0).getAverage = F32.inf false := by
    rw [Measure.getAverage, include_average, ht, hd]
    decide!
  refine ⟨h1, hd, ?_, ha, ?_⟩
  · rw [Measure.getCount, include_count, h1]
    decide
  · rw [ha]
    decide!

/-- C14, amended. The division in `include` is not guarded: `average` is always the float
quotient of the new total and the incremented counter converted to float.  For every
state whose counter is below 2^32 - 1 that divisor is the old counter plus 1, a positive
float, so no division by 0 happens; when the counter is 2^32 - 1 the increment wraps to
0, `include` divides by the float 0 and `average` becomes NaN or an infinity. -/
theorem include_divisor_positive (s : Measure) (v : Val) :
    (s.include v).average = (s.total + v) / ((s.includeDivisor : Nat) : Val) ∧
      (s.include v).count = s.includeDivisor ∧
      (s.count + 1 < countModulus →
        s.includeDivisor = s.count + 1 ∧ 0 < s.includeDivisor ∧
          (0 : Val) < ((s.includeDivisor : Nat) : Val)) ∧
      (s.count + 1 = countModulus →
        s.includeDivisor = 0 ∧
          ((s.include v).average = F32.nan ∨ (s.include v).average = F32.inf false ∨
            (s.include v).average = F32.inf true)) := by
  refine ⟨rfl, rfl, ?_, ?_⟩
  · intro hc
    have h : s.includeDivisor = s.count + 1 := Nat.mod_eq_of_lt hc
    have hpos : 0 < s.includeDivisor := by rw [h]; omega
    exact ⟨h, hpos, F32.natCast_pos _ hpos⟩
  · intro hc
    have h : s.includeDivisor = 0 := by
      rw [Measure.includeDivisor, hc]
      decide
    refine ⟨h, ?_⟩
    rw [include_average, h, F32.natCast_zero]
    exact F32.div_zero _

/-- Witness for C14 (amended): the third inclusion of 5, 1, 9 divides 15 by 3; an
inclusion of 1 with the counter at 2^32 - 1 divides 1 by 0. -/
theorem include_divisor_positive_witness :
    (((Measure.fresh 2 (fun _ => 7) 0).includeAll [5, 1]).count + 1 < countModulus ∧
      ((Measure.fresh 2 (fun _ => 7) 0).includeAll [5, 1]).includeDivisor = 3 ∧
      (0 : Val) < ((((Measure.fresh 2 (fun _ => 7) 0).includeAll [5, 1]).includeDivisor :
        Nat) : Val) ∧
      (((Measure.fresh 2 (fun _ => 7) 0).includeAll [5, 1]).include 9).average = 5) ∧
    ((Measure.fresh 2 (fun _ => 7) 4294967295).count + 1 = countModulus ∧
      (Measure.fresh 2 (fun _ => 7) 4294967295).includeDivisor = 0 ∧
      ((Measure.fresh 2 (fun _ => 7) 4294967295).include 1).average = F32.inf false) := by
  obtain ⟨_, _, h3, _⟩ :=
    include_divisor_positive ((Measure.fresh 2 (fun _ => 7) 0).includeAll [5, 1]) 9
  obtain ⟨_, _, _, h4⟩ :=
    include_divisor_positive (Measure.fresh 2 (fun _ => 7) 4294967295) 1
  exact ⟨⟨by decide, by decide, (h3 (by decide)).2.2, by decide!⟩,
    by decide, (h4 (by decide)).1, by decide!⟩

/-! ## Reachable states -/

@[simp]
theorem run_nil (s : Measure) : s.run [] = s := rfl

@[simp]
theorem run_cons (s : Measure) (op : Op) (ops : List Op) :
    s.run (op :: ops) = (s.step op).run ops := rfl

theorem run_map_callInclude (xs : List Val) : ∀ s : Measure,
    s.run (xs.map Op.callInclude) = s.includeAll xs := by
  induction xs with
  | nil => intro s; rfl
  | cons v xs ih =>
    intro s
    rw [List.map_cons, run_cons, includeAll_cons, ← ih]
    rfl

/-- A property that holds initially and is kept by every call holds after any calls. -/
theorem run_invariant (P : Measure → Prop) (hstep : ∀ (s : Measure) (op : Op), P s → P (s.step op))
    (ops : List Op) : ∀ s : Measure, P s → P (s.run ops) := by
  induction ops with
  | nil => intro s h; exact h
  | cons op ops ih =>
    intro s h
    exact ih (s.step op) (hstep s op h)

theorem step_capacity (s : Measure) (op : Op) : (s.step op).capacity = s.capacity := by
  cases op <;> rfl

theorem run_capacity (ops : List Op) (s : Measure) : (s.run ops).capacity = s.capacity :=
  run_invariant (fun t => t.capacity = s.capacity)
    (fun t op h => (step_capacity t op).trans h) ops s rfl

theorem step_stored_le (s : Measure) (op : Op) (h : s.stored ≤ s.capacity) :
    (s.step op).stored ≤ (s.step op).capacity := by
  cases op with
  | callBegin => exact h
  | callInclude v =>
    show (s.include v).stored ≤ s.capacity
    simp only [Measure.include]
    split_ifs <;> omega
  | callClear => exact h
  | callResetAvg => exact h
  | callDeleteRetained => exact Nat.zero_le _

theorem run_stored_le (ops : List Op) (s : Measure) (h : s.stored ≤ s.capacity) :
    (s.run ops).stored ≤ (s.run ops).capacity :=
  run_invariant (fun t => t.stored ≤ t.capacity) step_stored_le ops s h

theorem step_average_of_pos (s : Measure) (op : Op)
    (h : 0 < s.count → s.average = s.total / ((s.count : Nat) : Val)) :
    0 < (s.step op).count →
      (s.step op).average = (s.step op).total / (((s.step op).count : Nat) : Val) := by
  cases op with
  | callBegin => exact h
  | callInclude v => intro _; rfl
  | callClear => intro hpos; exact absurd hpos (Nat.lt_irrefl 0)
  | callResetAvg => intro hpos; exact absurd hpos (Nat.lt_irrefl 0)
  | callDeleteRetained => exact h

/-- Unless the counter reached 0 by wrapping, a counter of 0 means total and average
are 0. -/
theorem run_zero_count (ops : List Op) : ∀ (s : Measure) (w : Bool),
    (w = false → s.count = 0 → s.total = 0 ∧ s.average = 0) →
    wrappedLast s w ops = false →
    (s.run ops).count = 0 → (s.run ops).total = 0 ∧ (s.run ops).average = 0 := by
  induction ops with
  | nil =>
    intro s w h hw
    exact h hw
  | cons op ops ih =>
    intro s w h hw
    cases op with
    | callBegin => exact ih s.begin w h hw
    | callInclude v =>
      refine ih (s.include v) (decide ((s.include v).count = 0)) ?_ hw
      intro hd h0
      rw [h0] at hd
      exact absurd hd (by decide)
    | callClear => exact ih s.clear false (fun _ _ => ⟨rfl, rfl⟩) hw
    | callResetAvg => exact ih s.resetAvg false (fun _ _ => ⟨rfl, rfl⟩) hw
    | callDeleteRetained => exact ih s.deleteRetained w h hw

/-! ## Invariants of the aggregates and of the stored count -/

/-- C15, as stated, fails: after `clear()`, `include(1)` and 2^32 - 1 times `include(0)`
the 32-bit counter has wrapped to 0 while the total is 1 and the average, 1 divided by 0,
is positive infinity, so a counter of 0 implies neither a total of 0 nor an average
of 0. -/
theorem average_invariant_fails_after_wrap :
    ((Measure.fresh 1 (fun _ => 0) 0).run
        (Op.callClear ::
          ((1 : Val) :: List.replicate 4294967295 0).map Op.callInclude)).count = 0 ∧
      ((Measure.fresh 1 (fun _ => 0) 0).run
        (Op.callClear ::
          ((1 : Val) :: List.replicate 4294967295 0).map Op.callInclude)).total = 1 ∧
      ((Measure.fresh 1 (fun _ => 0) 0).run
        (Op.callClear ::
          ((1 : Val) :: List.replicate 4294967295 0).map Op.callInclude)).average =
        F32.inf false ∧
      ¬ (((Measure.fresh 1 (fun _ => 0) 0).run
            (Op.callClear ::
              ((1 : Val) :: List.replicate 4294967295 0).map Op.callInclude)).count = 0 →
          ((Measure.fresh 1 (fun _ => 0) 0).run
            (Op.callClear ::
              ((1 : Val) :: List.replicate 4294967295 0).map Op.callInclude)).total = 0 ∧
          ((Measure.fresh 1 (fun _ => 0) 0).run
            (Op.callClear ::
              ((1 : Val) :: List.replicate 4294967295 0).map Op.callInclude)).average =
            0) := by
  have hrun : (Measure.fresh 1 (fun _ => 0) 0).run
      (Op.callClear :: ((1 : Val) :: List.replicate 4294967295 0).map Op.callInclude) =
      (Measure.fresh 1 (fun _ => 0) 0).clear.includeAll (1 :: List.replicate 4294967295 0) := by
    rw [run_cons, run_map_callInclude]
    rfl
  obtain ⟨hc, ht⟩ := one_then_zeros (Measure.fresh 1 (fun _ => 0) 0) 4294967295
  have hc0 : ((Measure.fresh 1 (fun _ => 0) 0).clear.includeAll
      (1 :: List.replicate 4294967295 0)).count = 0 := by
    rw [hc]
    decide
  have ha : ((Measure.fresh 1 (fun _ => 0) 0).clear.includeAll
      (1 :: List.replicate 4294967295 0)).average = F32.inf false := by
    rw [average_includeAll _ _ (List.cons_ne_nil _ _), ht, hc0]
    decide!
  rw [hrun]
  refine ⟨hc0, ht, ha, ?_⟩
  intro h
  have h1 := (h hc0).1
  rw [ht] at h1
  revert h1
  decide!

/-- C15, amended. In every state reachable from a freshly constructed instance by any
sequence of `begin`, `include`, `clear`, `resetAvg` and `deleteRetained`: if the inclusion
count is positive then `average` is the float quotient of `total` and the count converted
to float; and if the count is 0 then total and average are 0, unless the counter reached
0 by wrapping, that is unless the last call that wrote the aggregates was an `include`
that found the counter at 2^32 - 1. -/
theorem average_invariant (retained : Nat) (mem : Int → Val) (cnt : Nat) (ops : List Op) :
    (0 < ((Measure.fresh retained mem cnt).run ops).count →
        ((Measure.fresh retained mem cnt).run ops).average =
          ((Measure.fresh retained mem cnt).run ops).total /
            ((((Measure.fresh retained mem cnt).run ops).count : Nat) : Val)) ∧
      (wrappedLast (Measure.fresh retained mem cnt) false ops = false →
        ((Measure.fresh retained mem cnt).run ops).count = 0 →
        ((Measure.fresh retained mem cnt).run ops).total = 0 ∧
          ((Measure.fresh retained mem cnt).run ops).average = 0) := by
  constructor
  · refine run_invariant
      (fun t => 0 < t.count → t.average = t.total / ((t.count : Nat) : Val))
      step_average_of_pos ops _ ?_
    intro hpos
    exact (F32.zero_div_natCast _ hpos).symm
  · intro hw
    exact run_zero_count ops _ false (fun _ _ => ⟨rfl, rfl⟩) hw

/-- Witness for C15 (amended): after including 5 and 1 the count is 2 and the average 3;
after a further `resetAvg()` count, total and average are 0. -/
theorem average_invariant_witness :
    (0 < ((Measure.fresh 2 (fun _ => 7) 0).run
        [Op.callInclude 5, Op.callInclude 1]).count ∧
      ((Measure.fresh 2 (fun _ => 7) 0).run [Op.callInclude 5, Op.callInclude 1]).average =
        ((Measure.fresh 2 (fun _ => 7) 0).run [Op.callInclude 5, Op.callInclude 1]).total /
          ((((Measure.fresh 2 (fun _ => 7) 0).run
            [Op.callInclude 5, Op.callInclude 1]).count : Nat) : Val) ∧
      ((Measure.fresh 2 (fun _ => 7) 0).run [Op.callInclude 5, Op.callInclude 1]).average
        = 3) ∧
    (wrappedLast (Measure.fresh 2 (fun _ => 7) 0) false
        [Op.callInclude 5, Op.callInclude 1, Op.callResetAvg] = false ∧
      ((Measure.fresh 2 (fun _ => 7) 0).run
        [Op.callInclude 5, Op.callInclude 1, Op.callResetAvg]).count = 0 ∧
      ((Measure.fresh 2 (fun _ => 7) 0).run
        [Op.callInclude 5, Op.callInclude 1, Op.callResetAvg]).total = 0 ∧
      ((Measure.fresh 2 (fun _ => 7) 0).run
        [Op.callInclude 5, Op.callInclude 1, Op.callResetAvg]).average = 0) := by
  have hw : wrappedLast (Measure.fresh 2 (fun _ => 7) 0) false
      [Op.callInclude 5, Op.callInclude 1, Op.callResetAvg] = false := by decide
  have hpos : 0 < ((Measure.fresh 2 (fun _ => 7) 0).run
      [Op.callInclude 5, Op.callInclude 1]).count := by decide
  refine ⟨⟨hpos, (average_invariant 2 (fun _ => 7) 0
      [Op.callInclude 5, Op.callInclude 1]).1 hpos, by decide!⟩, hw, rfl, ?_⟩
  exact (average_invariant 2 (fun _ => 7) 0
    [Op.callInclude 5, Op.callInclude 1, Op.callResetAvg]).2 hw rfl

/-- C20. Stored-count bound: in every state reachable from a freshly constructed instance
with capacity at least 1 by any sequence of `begin`, `include`, `clear`, `resetAvg` and
`deleteRetained`, the stored count is at most the capacity, and the capacity is the one
fixed at construction. -/
theorem stored_count_bounded (retained : Nat) (mem : Int → Val) (cnt : Nat) (ops : List Op)
    (_hcap : 1 ≤ retained) :
    0 ≤ ((Measure.fresh retained mem cnt).run ops).stored ∧
      ((Measure.fresh retained mem cnt).run ops).stored ≤
        ((Measure.fresh retained mem cnt).run ops).capacity ∧
      ((Measure.fresh retained mem cnt).run ops).capacity = retained ∧
      ((Measure.fresh retained mem cnt).run ops).getCapacity = retained :=
  ⟨Nat.zero_le _, run_stored_le ops _ (Nat.zero_le _), run_capacity ops _,
    run_capacity ops _⟩

/-- Witness for C20: capacity 2 and three inclusions around a `begin()`. -/
theorem stored_count_bounded_witness :
    1 ≤ 2 ∧
      ((Measure.fresh 2 (fun _ => 7) 0).run
        [Op.callInclude 5, Op.callBegin, Op.callInclude 1, Op.callInclude 9]).stored = 2 ∧
      ((Measure.fresh 2 (fun _ => 7) 0).run
        [Op.callInclude 5, Op.callBegin, Op.callInclude 1, Op.callInclude 9]).stored ≤
      ((Measure.fresh 2 (fun _ => 7) 0).run
        [Op.callInclude 5, Op.callBegin, Op.callInclude 1, Op.callInclude 9]).capacity :=
  ⟨by decide, by decide,
    (stored_count_bounded 2 (fun _ => 7) 0
      [Op.callInclude 5, Op.callBegin, Op.callInclude 1, Op.callInclude 9]
      (by decide)).2.1⟩

/-! ## Contents of the ring in reachable states -/

theorem ringInv_begin (s : Measure) (hist : List Val) (h : RingInv s hist.reverse) :
    RingInv s.begin (hist.map fun _ => 0).reverse := by
  obtain ⟨hst, _⟩ := h
  have hlen : s.stored ≤ hist.length := by
    rw [hst, List.length_reverse]
    exact Nat.min_le_left _ _
  have hcap : s.stored ≤ s.capacity := by
    rw [hst]
    exact Nat.min_le_right _ _
  refine ⟨?_, ?_⟩
  · show s.stored = min (hist.map fun _ => (0 : Val)).reverse.length s.capacity
    rw [hst, List.length_reverse, List.length_reverse, List.length_map]
  · intro j hj
    have hj1 : j < s.stored := hj
    have hc : s.begin.capacity = s.capacity := rfl
    rw [hc, begin_values, if_pos (by omega), ← List.map_reverse,
      List.getElem?_map, List.getElem?_eq_getElem (by rw [List.length_reverse]; omega)]
    rfl

/-- The ring invariant follows the retained history through every call. -/
theorem ringInv_run (ops : List Op) : ∀ (s : Measure) (hist : List Val),
    1 ≤ s.capacity → RingInv s hist.reverse →
    RingInv (s.run ops) (retainedAfter hist ops).reverse := by
  induction ops with
  | nil => intro s hist _ h; exact h
  | cons op ops ih =>
    intro s hist hcap h
    cases op with
    | callBegin => exact ih s.begin _ hcap (ringInv_begin s hist h)
    | callInclude v =>
      refine ih (s.include v) (hist ++ [v]) hcap ?_
      rw [List.reverse_append]
      exact ringInv_include s hist.reverse v hcap h
    | callClear => exact ih s.clear hist hcap h
    | callResetAvg => exact ih s.resetAvg hist hcap h
    | callDeleteRetained =>
      exact ih s.deleteRetained [] hcap (ringInv_of_stored_zero _ rfl)

/-- C16, as stated, fails: with capacity 2, `include(5)` followed by `begin()` leaves the
stored count at 1 while the last slot holds 0, not the included value 5. -/
theorem begin_discards_retained_value :
    ((Measure.fresh 2 (fun _ => 0) 0).run [Op.callInclude 5, Op.callBegin]).stored = 1 ∧
      ((Measure.fresh 2 (fun _ => 0) 0).run [Op.callInclude 5, Op.callBegin]).values
        (((2 : Nat) : Int) - 1) = 0 ∧
      ((Measure.fresh 2 (fun _ => 0) 0).run [Op.callInclude 5, Op.callBegin]).values
        (((2 : Nat) : Int) - 1) ≠ 5 := by
  refine ⟨by decide, by decide, by decide⟩

/-- C16, amended. In every state reachable from a freshly constructed instance with
capacity at least 1 by any sequence of `begin`, `include`, `clear`, `resetAvg` and
`deleteRetained`, the stored count is the smaller of the capacity and the number of
retained values, and the trailing `stored` slots hold, oldest first, the most recent
retained values; the retained values are those included since the last `deleteRetained`
or construction, each overwritten with 0 by a later `begin()`. -/
theorem trailing_slots_hold_retained (retained : Nat) (mem : Int → Val) (cnt : Nat)
    (ops : List Op) (hcap : 1 ≤ retained) :
    ((Measure.fresh retained mem cnt).run ops).stored =
        min (retainedAfter [] ops).length retained ∧
      ∀ k : Nat, k < ((Measure.fresh retained mem cnt).run ops).stored →
        (retainedAfter [] ops)[(retainedAfter [] ops).length -
            ((Measure.fresh retained mem cnt).run ops).stored + k]? =
          some (((Measure.fresh retained mem cnt).run ops).values
            ((retained : Int) - (((Measure.fresh retained mem cnt).run ops).stored : Int) +
              (k : Int))) := by
  obtain ⟨hst, hval⟩ :=
    ringInv_run ops (Measure.fresh retained mem cnt) [] hcap
      (ringInv_of_stored_zero _ rfl)
  have hc : ((Measure.fresh retained mem cnt).run ops).capacity = retained :=
    run_capacity ops _
  rw [hc, List.length_reverse] at hst
  rw [hc] at hval
  refine ⟨hst, ?_⟩
  intro k hk
  have hle : ((Measure.fresh retained mem cnt).run ops).stored ≤
      (retainedAfter [] ops).length := by
    rw [hst]
    exact Nat.min_le_left _ _
  have hler : ((Measure.fresh retained mem cnt).run ops).stored ≤ retained := by
    rw [hst]
    exact Nat.min_le_right _ _
  have h := hval (((Measure.fresh retained mem cnt).run ops).stored - 1 - k) (by omega)
  rw [List.getElem?_reverse (by omega)] at h
  have e1 : (retainedAfter [] ops).length - 1 -
      (((Measure.fresh retained mem cnt).run ops).stored - 1 - k) =
      (retainedAfter [] ops).length - ((Measure.fresh retained mem cnt).run ops).stored + k := by
    omega
  have e2 : (retained : Int) - 1 -
      ((((Measure.fresh retained mem cnt).run ops).stored - 1 - k : Nat) : Int) =
      (retained : Int) - (((Measure.fresh retained mem cnt).run ops).stored : Int) +
        (k : Int) := by
    omega
  rw [e1, e2] at h
  exact h

/-- Witness for C16 (amended): capacity 2; 5, `begin()`, 1 leaves slots 0 and 1; a
further 9 leaves 1 and 9. -/
theorem trailing_slots_hold_retained_witness :
    1 ≤ 2 ∧
      retainedAfter [] [Op.callInclude 5, Op.callBegin, Op.callInclude 1] = [0, 1] ∧
      ((Measure.fresh 2 (fun _ => 7) 0).run
        [Op.callInclude 5, Op.callBegin, Op.callInclude 1]).stored =
        min (retainedAfter [] [Op.callInclude 5, Op.callBegin, Op.callInclude 1]).length 2 ∧
      ((Measure.fresh 2 (fun _ => 7) 0).run
        [Op.callInclude 5, Op.callBegin, Op.callInclude 1]).getMember 0 = 0 ∧
      ((Measure.fresh 2 (fun _ => 7) 0).run
        [Op.callInclude 5, Op.callBegin, Op.callInclude 1]).getMember 1 = 1 :=
  ⟨by decide, by decide,
    (trailing_slots_hold_retained 2 (fun _ => 7) 0
      [Op.callInclude 5, Op.callBegin, Op.callInclude 1] (by decide)).1,
    by decide, by decide⟩

theorem step_unfilledZero (s : Measure) (op : Op) (h : UnfilledZero s) :
    UnfilledZero (s.step op) := by
  cases op with
  | callBegin =>
    intro i h0 h1
    have h1a : i < (s.capacity : Int) - (s.stored : Int) := h1
    have h2 : i < (s.capacity : Int) := by omega
    show s.begin.values i = 0
    rw [begin_values, if_pos ⟨h0, h2⟩]
  | callInclude v =>
    intro i h0 h1
    show (s.include v).values i = 0
    replace h1 : i < (s.capacity : Int) - ((s.include v).stored : Int) := h1
    by_cases hc : s.capacity = 1
    · have hs : (s.include v).stored = 1 := by simp [Measure.include, hc]
      rw [hs, hc] at h1
      omega
    · have hs : (s.include v).stored =
          if s.stored < s.capacity then s.stored + 1 else s.stored := by
        simp [Measure.include, hc]
      rw [hs] at h1
      by_cases hlt : s.stored < s.capacity
      · rw [if_pos hlt] at h1
        rw [include_values_of_ne_one s v hc, if_neg (by omega)]
        split_ifs
        · exact h (i + 1) (by omega) (by push_cast at h1; omega)
        · exact h i h0 (by push_cast at h1; omega)
      · rw [if_neg hlt] at h1
        omega
  | callClear => exact h
  | callResetAvg => exact h
  | callDeleteRetained =>
    intro i h0 h1
    have h1a : i < (s.capacity : Int) - ((0 : Nat) : Int) := h1
    have h2 : i < (s.capacity : Int) := by omega
    show s.deleteRetained.values i = 0
    rw [deleteRetained_values, if_pos ⟨h0, h2⟩]

/-- From a state whose unfilled slots are 0, such as a fresh instance in zeroed storage
or any state right after `begin()` or `deleteRetained()`, the unfilled slots stay 0. -/
theorem run_unfilledZero (ops : List Op) (s : Measure) (h : UnfilledZero s) :
    UnfilledZero (s.run ops) :=
  run_invariant UnfilledZero step_unfilledZero ops s h

/-- C17. Evaluation on a default-initialised instance of capacity 2 whose storage held 7
in every float cell: before any call the unfilled slot 0 holds 7, and after `include(1)`
the stored count is 1 and the unfilled slot 0 still holds 7, not 0. -/
theorem unfilled_slots_hold_leftover :
    (Measure.fresh 2 (fun _ => 7) 0).stored = 0 ∧
      (Measure.fresh 2 (fun _ => 7) 0).values 0 = 7 ∧
      ((Measure.fresh 2 (fun _ => 7) 0).run [Op.callInclude 1]).stored = 1 ∧
      ((Measure.fresh 2 (fun _ => 7) 0).run [Op.callInclude 1]).values 0 = 7 ∧
      ¬ UnfilledZero ((Measure.fresh 2 (fun _ => 7) 0).run [Op.callInclude 1]) := by
  refine ⟨by decide, by decide, by decide, by decide, ?_⟩
  intro h
  have h1 := h 0 (by decide) (by decide)
  revert h1
  decide

/-- With the unfilled slots at 0, the shift of `include` agrees with left-rotate-and-append
on every buffer slot. -/
theorem include_eq_rotateAppend_of_unfilledZero (s : Measure) (v : Val)
    (hst : s.stored ≤ s.capacity) (hz : UnfilledZero s) :
    (∀ i : Int, 0 ≤ i → i < (s.capacity : Int) →
        (s.include v).values i = rotateAppend s.values s.capacity v i) ∧
      (s.include v).stored = min (s.stored + 1) s.capacity := by
  by_cases hc : s.capacity = 1
  · refine ⟨?_, ?_⟩
    · intro i h0 h1
      have hi : i = 0 := by omega
      rw [include_values_of_eq_one s v hc, if_pos hi, rotateAppend, if_pos (by omega)]
    · simp only [Measure.include, if_pos hc]
      omega
  · refine ⟨?_, ?_⟩
    · intro i h0 h1
      rw [include_values_of_ne_one s v hc]
      unfold rotateAppend
      by_cases hl : i = (s.capacity : Int) - 1
      · rw [if_pos hl, if_pos hl]
      · have hr : 0 ≤ i ∧ i < (s.capacity : Int) - 1 := by omega
        rw [if_neg hl, if_neg hl, if_pos hr]
        split_ifs with hs
        · rfl
        · rw [hz i h0 (by omega), hz (i + 1) (by omega) (by omega)]
    · simp only [Measure.include, if_neg hc]
      split_ifs <;> omega

/-- C18. Evaluation on a default-initialised instance of capacity 3 whose storage held
7, 8, 8 in the buffer cells: after `include(1)` slot 0 still holds 7, while
left-rotate-and-append puts the old slot 1, that is 8, there; the other two slots and
the stored count agree. -/
theorem include_differs_from_rotateAppend :
    ((Measure.fresh 3 (fun i => if i = 0 then 7 else 8) 0).include 1).values 0 = 7 ∧
      rotateAppend (Measure.fresh 3 (fun i => if i = 0 then 7 else 8) 0).values 3 1 0 = 8 ∧
      ((Measure.fresh 3 (fun i => if i = 0 then 7 else 8) 0).include 1).values 1 =
        rotateAppend (Measure.fresh 3 (fun i => if i = 0 then 7 else 8) 0).values 3 1 1 ∧
      ((Measure.fresh 3 (fun i => if i = 0 then 7 else 8) 0).include 1).values 2 =
        rotateAppend (Measure.fresh 3 (fun i => if i = 0 then 7 else 8) 0).values 3 1 2 ∧
      ((Measure.fresh 3 (fun i => if i = 0 then 7 else 8) 0).include 1).stored = min (0 + 1) 3 := by
  refine ⟨by decide, by decide, by decide, by decide, by decide⟩

end MeasureLib
